import Mathlib

/-!
# rmrf: concurrent recursive removal

A shallow embedding of rmrf.go and the properties of its traversal and of its
directory batching.

* Paths: strings.Count, filepath.Clean, filepath.Join.
* dirTracker: the buckets indexed by the number of "/" and the batches emitted.
* process, kickstart: the statements each goroutine performs.
* The loop of main with its goroutines, as a step function over schedules.
-/

namespace Rmrf

/-- A Go string holding a path, as its sequence of characters. -/
abbrev Path := List Char

/-- The function strings.Count for a separator of one character, the only way the
program calls it (with "/"). -/
def strings.Count (s : Path) (sep : Char) : Nat := s.count sep

/-- The inner loop of the ".." case of filepath.Clean: starting from w (already
decremented once), step back while w is above dotdot and buf[w] is no separator. -/
def backtrack (buf : List Char) (dotdot : Nat) : Nat → Nat
  | 0 => 0
  | w + 1 =>
    if dotdot < w + 1 ∧ buf.getD (w + 1) '/' ≠ '/' then backtrack buf dotdot w else w + 1

/-- The main loop of filepath.Clean (Go standard library, Unix): reads the rest of the
path, writes to out; dotdot is the length of out that ".." must not remove. The
first argument bounds the number of iterations; each one reads at least one
character. -/
def cleanLoop (rooted : Bool) : Nat → List Char → List Char → Nat → List Char
  | 0, _, out, _ => out
  | _ + 1, [], out, _ => out
  | fuel + 1, c :: t, out, dotdot =>
    if c = '/' then cleanLoop rooted fuel t out dotdot
    else if c = '.' ∧ (t = [] ∨ t.head? = some '/') then cleanLoop rooted fuel t out dotdot
    else if c = '.' ∧ t.head? = some '.' ∧ (t.tail = [] ∨ t.tail.head? = some '/') then
      if dotdot < out.length then
        cleanLoop rooted fuel t.tail (out.take (backtrack out dotdot (out.length - 1))) dotdot
      else if rooted = false then
        let out1 := (if 0 < out.length then out ++ ['/'] else out) ++ ['.', '.']
        cleanLoop rooted fuel t.tail out1 out1.length
      else cleanLoop rooted fuel t.tail out dotdot
    else
      let out1 := if (rooted = true ∧ out.length ≠ 1) ∨ (rooted = false ∧ out.length ≠ 0)
        then out ++ ['/'] else out
      cleanLoop rooted fuel ((c :: t).dropWhile (· ≠ '/')) (out1 ++ (c :: t).takeWhile (· ≠ '/')) dotdot

/-- The function filepath.Clean of the Go standard library on Unix (no volume name,
separator "/"). -/
def filepath.Clean (path : Path) : Path :=
  match path with
  | [] => ['.']
  | c :: t =>
    let rooted : Bool := c = '/'
    let out := if rooted then cleanLoop rooted t.length t ['/'] 1
               else cleanLoop rooted (c :: t).length (c :: t) [] 0
    if out.length = 0 then ['.'] else out

/-- The function filepath.Join of the Go standard library on Unix: the elements from
the first non-empty one on, joined by "/" and cleaned. -/
def filepath.Join (elem : List Path) : Path :=
  match elem.dropWhile (· = []) with
  | [] => []
  | rest => filepath.Clean (List.intercalate ['/'] rest)


/-- A Go slice of buckets (the type of dirArray): its elements and its capacity. -/
structure Slice where
  elems : List (List Path)
  cap : Nat
deriving DecidableEq, Repr

/-- The Go builtin make for a slice of buckets: len nil elements, capacity cap. -/
def make (len cap : Nat) : Slice := ⟨List.replicate len [], cap⟩

/-- The Go builtin copy, which copies min(len(dst), len(src)) elements. -/
def copy (dst src : Slice) : Slice :=
  let m := min dst.elems.length src.elems.length
  ⟨src.elems.take m ++ dst.elems.drop m, dst.cap⟩

/-- One iteration of the collect loop of dirTracker (lines 69-81); none is the
run-time panic of an index out of range. The count i of a string that fits in memory
is far below 2^63 / 10, so i * 10 is computed without wrap-around. -/
def collect (dirArray : Slice) (d : Path) : Option Slice :=
  let i := strings.Count d '/'
  let dirArray := if dirArray.cap ≤ i then copy (make (i * 10) (i * 10)) dirArray else dirArray
  if h : i < dirArray.elems.length then
    some ⟨dirArray.elems.set i (dirArray.elems[i] ++ [d]), dirArray.cap⟩
  else none

/-- The collect loop of dirTracker over the paths received on dirs. -/
def collectAll : Slice → List Path → Option Slice
  | dirArray, [] => some dirArray
  | dirArray, d :: rest =>
    match collect dirArray d with
    | none => none
    | some next => collectAll next rest

/-- The emit loop of dirTracker (lines 88-94): called with k = len(dirArray), it
visits i = k - 1 down to 0 and sends every non-empty bucket on dirReturn. -/
def emitLoop (dirArray : List (List Path)) : Nat → List (List Path)
  | 0 => []
  | i + 1 =>
    if 0 < (dirArray.getD i []).length then dirArray.getD i [] :: emitLoop dirArray i
    else emitLoop dirArray i

/-- The function dirTracker: from the sequence received on dirs to the sequence
of batches sent on dirReturn; none is a run-time panic. -/
def dirTracker (dirs : List Path) : Option (List (List Path)) :=
  match collectAll (make 1 1) dirs with
  | none => none
  | some dirArray =>
    some (if 0 < dirArray.elems.length then emitLoop dirArray.elems dirArray.elems.length else [])


/-- The part of os.FileInfo the program reads: Name() and Mode().IsDir(). -/
structure FileInfo where
  name : Path
  isDir : Bool
deriving DecidableEq, Repr

/-- The struct dirItem (lines 102-105). -/
structure dirItem where
  name : Path
  info : FileInfo
deriving DecidableEq, Repr

/-- The outcomes of the filesystem calls that one call of process makes, per path:
Readdir(0) returns its result or fails (none); os.Open, Close and os.Remove succeed
(true) or fail (false). -/
structure FS where
  openOk : Path → Bool
  readdir : Path → Option (List FileInfo)
  closeOk : Path → Bool
  removeOk : Path → Bool

/-- The observable statements of process and kickstart: a send on queue, a send on
dirs, a call of os.Remove, log.Fatalf (which ends the program with os.Exit(1)) and
the send on done. Writes to the log and to stderr are left out. -/
inductive Action
  | push (item : dirItem)
  | sendDirs (d : Path)
  | remove (p : Path)
  | fatal
  | sendDone
deriving DecidableEq, Repr

/-- The function process (lines 111-151) as the sequence of statements it performs
under the filesystem outcomes fs. After log.Fatalf nothing more is performed. -/
def process (fs : FS) (item : dirItem) : List Action :=
  if item.info.isDir then
    if fs.openOk item.name = false then [Action.fatal]
    else
      match fs.readdir item.name with
      | none => [Action.fatal]
      | some contents =>
        if fs.closeOk item.name = false then [Action.fatal]
        else
          contents.map (fun c => Action.push ⟨filepath.Join [item.name, c.name], c⟩)
            ++ [Action.sendDirs item.name] ++ [Action.sendDone]
  else
    if fs.removeOk item.name = false then [Action.remove item.name, Action.fatal]
    else [Action.remove item.name, Action.sendDone]

/-- The function kickstart (lines 156-174) from the k-th argument on; lstat k arg is
the outcome of os.Lstat(arg) for the k-th argument, none when it fails. -/
def kickstart (lstat : Nat → Path → Option FileInfo) : Nat → List Path → List Action
  | _, [] => [Action.sendDone]
  | k, arg :: rest =>
    match lstat k arg with
    | none => [Action.fatal]
    | some info => Action.push ⟨arg, info⟩ :: kickstart lstat (k + 1) rest

/-- Control points of main: top is the first select (line 231), mid the test of line
246, polled the default branch of the second select (lines 257-262), wait the
blocking receive of line 267, fin the label finished, exited the state after
os.Exit(1). -/
inductive PC
  | top
  | mid
  | polled
  | wait
  | fin
  | exited
deriving DecidableEq, Repr

/-- The command line, -n (depth), -q (qcap) and the root arguments, and the
filesystem as the program meets it: lstat k is the outcome of os.Lstat for the k-th
argument and fs k holds the outcomes of the calls made by the k-th call of process
(counted from 0 in the order main starts them), so that the filesystem may change
during the run. -/
structure Config where
  depth : Int
  qcap : Nat
  args : List Path
  lstat : Nat → Path → Option FileInfo
  fs : Nat → FS

/-- The state of the running program during the traversal: the control point and the
counter of main, the buffer of the channel queue, the goroutines started by main that
have not completed their send on done (each with the statements it still has to
perform), and five history variables: every statement performed so far, the items
taken from queue by main, the number of values received on done, the names of the
goroutines of tasks, position by position (0 is kickstart and k + 1 the k-th call of
process, counted from 0), and every statement performed so far together with the
name of the goroutine that performed it. -/
structure Sys where
  pc : PC
  goroutinesOutstanding : Int
  queue : List dirItem
  tasks : List (List Action)
  hist : List Action
  spawned : List dirItem
  doneRecv : Nat
  ids : List Nat
  log : List (Nat × Action)
deriving DecidableEq, Repr

/-- Goroutine i performs its next statement. A send on queue needs room in the
buffer (with capacity 0 it needs main as the receiver and is part of mainStep); a
send on dirs is received by dirTracker, which does nothing but receive
until dirs is closed; the send on done needs main as the receiver and is part of
recvDone. -/
def taskStep (cfg : Config) (s : Sys) (i : Nat) : Option Sys :=
  match s.tasks[i]? with
  | some (Action.push item :: rest) =>
    if s.queue.length < cfg.qcap then
      some { s with queue := s.queue ++ [item], tasks := s.tasks.set i rest,
                    hist := s.hist ++ [Action.push item],
                    log := s.log ++ [(s.ids.getD i 0, Action.push item)] }
    else none
  | some (Action.sendDirs d :: rest) =>
    some { s with tasks := s.tasks.set i rest, hist := s.hist ++ [Action.sendDirs d],
                  log := s.log ++ [(s.ids.getD i 0, Action.sendDirs d)] }
  | some (Action.remove p :: rest) =>
    some { s with tasks := s.tasks.set i rest, hist := s.hist ++ [Action.remove p],
                  log := s.log ++ [(s.ids.getD i 0, Action.remove p)] }
  | some (Action.fatal :: _) =>
    some { s with pc := PC.exited, hist := s.hist ++ [Action.fatal],
                  log := s.log ++ [(s.ids.getD i 0, Action.fatal)] }
  | _ => none

/-- The rendezvous on done between main and goroutine i, whose last statement is the
send: main decrements the counter and goes on at next, the goroutine returns. -/
def recvDone (s : Sys) (i : Nat) (next : PC) : Option Sys :=
  match s.tasks[i]? with
  | some [Action.sendDone] =>
    some { s with pc := next, goroutinesOutstanding := s.goroutinesOutstanding - 1,
                  tasks := s.tasks.eraseIdx i, hist := s.hist ++ [Action.sendDone],
                  doneRecv := s.doneRecv + 1, ids := s.ids.eraseIdx i,
                  log := s.log ++ [(s.ids.getD i 0, Action.sendDone)] }
  | _ => none

/-- One step of the loop of main (lines 230-270). At top and at wait, sender names
the goroutine whose value is received on done; none at top is the default branch of
the first select. The break of line 238 leaves only the select. At mid, none is the
receive from the buffer of queue or, when it is empty, the default branch; when queue
is unbuffered (capacity 0) main can instead receive the item directly from goroutine
i, which is blocked in its send (sender = some i). -/
def mainStep (cfg : Config) (s : Sys) (sender : Option Nat) : Option Sys :=
  match s.pc, sender with
  | PC.top, some i => recvDone s i PC.mid
  | PC.top, none => some { s with pc := PC.mid }
  | PC.mid, none =>
    if s.goroutinesOutstanding < cfg.depth then
      match s.queue with
      | item :: rest =>
        some { s with pc := PC.wait, queue := rest,
                      tasks := s.tasks ++ [process (cfg.fs s.spawned.length) item],
                      goroutinesOutstanding := s.goroutinesOutstanding + 1,
                      spawned := s.spawned ++ [item],
                      ids := s.ids ++ [s.spawned.length + 1] }
      | [] => some { s with pc := PC.polled }
    else some { s with pc := PC.wait }
  | PC.mid, some i =>
    if s.goroutinesOutstanding < cfg.depth ∧ cfg.qcap = 0 then
      match s.tasks[i]? with
      | some (Action.push item :: rest) =>
        some { s with pc := PC.wait,
                      tasks := s.tasks.set i rest ++ [process (cfg.fs s.spawned.length) item],
                      goroutinesOutstanding := s.goroutinesOutstanding + 1,
                      hist := s.hist ++ [Action.push item],
                      spawned := s.spawned ++ [item],
                      ids := s.ids ++ [s.spawned.length + 1],
                      log := s.log ++ [(s.ids.getD i 0, Action.push item)] }
      | _ => none
    else none
  | PC.polled, none =>
    if s.goroutinesOutstanding = 0 then some { s with pc := PC.fin }
    else some { s with pc := PC.wait }
  | PC.wait, some i => recvDone s i PC.top
  | _, _ => none

/-- A scheduling choice: goroutine i moves, or main moves. -/
inductive Move
  | task (i : Nat)
  | main (sender : Option Nat)
deriving DecidableEq, Repr

/-- One step of the program; none when the chosen move is not enabled. -/
def step (cfg : Config) (s : Sys) : Move → Option Sys
  | Move.task i => if s.pc = PC.fin ∨ s.pc = PC.exited then none else taskStep cfg s i
  | Move.main sender => mainStep cfg s sender

/-- The state of main on entry to the loop (lines 206-221): none when there is no
argument, in which case main returns before the loop. -/
def mainStart (cfg : Config) : Option Sys :=
  if cfg.args.length = 0 then none
  else some ⟨PC.top, 1, [], [kickstart cfg.lstat 0 cfg.args], [], [], 0, [0], []⟩

/-- Runs a schedule. -/
def run (cfg : Config) : Sys → List Move → Option Sys
  | s, [] => some s
  | s, m :: ms =>
    match step cfg s m with
    | none => none
    | some next => run cfg next ms

/-- The states the program can be in during the traversal. -/
def Reachable (cfg : Config) (s : Sys) : Prop :=
  ∃ s0 ms, mainStart cfg = some s0 ∧ run cfg s0 ms = some s

/-- The paths received by dirTracker on dirs, in order. -/
def collected (s : Sys) : List Path :=
  s.hist.filterMap (fun a => match a with | Action.sendDirs d => some d | _ => none)

/-- The items sent on queue, in order. -/
def pushed (hist : List Action) : List dirItem :=
  hist.filterMap (fun a => match a with | Action.push x => some x | _ => none)


/-- The buckets of dirArray hold exactly the paths of ds, each bucket in arrival
order, and len(dirArray) = cap(dirArray) exceeds every index in use. -/
def Holds (ds : List Path) (dirArray : Slice) : Prop :=
  dirArray.cap = dirArray.elems.length ∧ 0 < dirArray.elems.length ∧
  (∀ d ∈ ds, strings.Count d '/' < dirArray.elems.length) ∧
  ∀ j, dirArray.elems.getD j [] = ds.filter (fun d => strings.Count d '/' = j)

/-- The steps of the program as a relation, one constructor per statement kind:
a send on queue, a send on dirs or a call of os.Remove, log.Fatalf, the receive on
done (at top or at wait), the default branch of the first select, and the
outcomes of lines 246-264 (spawn from the buffer, handoff on an unbuffered queue,
empty, full, finish, again). -/
inductive Step (cfg : Config) : Sys → Sys → Prop
  | push (s : Sys) (i : Nat) (x : dirItem) (rest : List Action) :
      s.pc ≠ PC.fin → s.pc ≠ PC.exited →
      s.tasks[i]? = some (Action.push x :: rest) → s.queue.length < cfg.qcap →
      Step cfg s { s with queue := s.queue ++ [x], tasks := s.tasks.set i rest,
                          hist := s.hist ++ [Action.push x],
                          log := s.log ++ [(s.ids.getD i 0, Action.push x)] }
  | quiet (s : Sys) (i : Nat) (a : Action) (rest : List Action) :
      s.pc ≠ PC.fin → s.pc ≠ PC.exited →
      s.tasks[i]? = some (a :: rest) → ((∃ d, a = Action.sendDirs d) ∨ ∃ p, a = Action.remove p) →
      Step cfg s { s with tasks := s.tasks.set i rest, hist := s.hist ++ [a],
                          log := s.log ++ [(s.ids.getD i 0, a)] }
  | fatal (s : Sys) (i : Nat) (rest : List Action) :
      s.pc ≠ PC.fin → s.pc ≠ PC.exited →
      s.tasks[i]? = some (Action.fatal :: rest) →
      Step cfg s { s with pc := PC.exited, hist := s.hist ++ [Action.fatal],
                          log := s.log ++ [(s.ids.getD i 0, Action.fatal)] }
  | recv (s : Sys) (i : Nat) (next : PC) :
      (s.pc = PC.top ∧ next = PC.mid ∨ s.pc = PC.wait ∧ next = PC.top) →
      s.tasks[i]? = some [Action.sendDone] →
      Step cfg s { s with pc := next, goroutinesOutstanding := s.goroutinesOutstanding - 1,
                          tasks := s.tasks.eraseIdx i, hist := s.hist ++ [Action.sendDone],
                          doneRecv := s.doneRecv + 1, ids := s.ids.eraseIdx i,
                          log := s.log ++ [(s.ids.getD i 0, Action.sendDone)] }
  | skip (s : Sys) : s.pc = PC.top → Step cfg s { s with pc := PC.mid }
  | spawn (s : Sys) (item : dirItem) (rest : List dirItem) :
      s.pc = PC.mid → s.goroutinesOutstanding < cfg.depth → s.queue = item :: rest →
      Step cfg s { s with pc := PC.wait, queue := rest,
                          tasks := s.tasks ++ [process (cfg.fs s.spawned.length) item],
                          goroutinesOutstanding := s.goroutinesOutstanding + 1,
                          spawned := s.spawned ++ [item],
                          ids := s.ids ++ [s.spawned.length + 1] }
  | handoff (s : Sys) (i : Nat) (item : dirItem) (rest : List Action) :
      s.pc = PC.mid → s.goroutinesOutstanding < cfg.depth → cfg.qcap = 0 →
      s.tasks[i]? = some (Action.push item :: rest) →
      Step cfg s { s with pc := PC.wait,
                          tasks := s.tasks.set i rest ++ [process (cfg.fs s.spawned.length) item],
                          goroutinesOutstanding := s.goroutinesOutstanding + 1,
                          hist := s.hist ++ [Action.push item],
                          spawned := s.spawned ++ [item],
                          ids := s.ids ++ [s.spawned.length + 1],
                          log := s.log ++ [(s.ids.getD i 0, Action.push item)] }
  | empty (s : Sys) :
      s.pc = PC.mid → s.goroutinesOutstanding < cfg.depth → s.queue = [] →
      Step cfg s { s with pc := PC.polled }
  | full (s : Sys) :
      s.pc = PC.mid → ¬ s.goroutinesOutstanding < cfg.depth →
      Step cfg s { s with pc := PC.wait }
  | finish (s : Sys) :
      s.pc = PC.polled → s.goroutinesOutstanding = 0 → Step cfg s { s with pc := PC.fin }
  | again (s : Sys) :
      s.pc = PC.polled → s.goroutinesOutstanding ≠ 0 → Step cfg s { s with pc := PC.wait }

/-- An action is accounted for in a state: performed already, or still to be
performed by a goroutine that has not returned. -/
def Accounted (s : Sys) (a : Action) : Prop :=
  a ∈ s.hist ∨ ∃ t ∈ s.tasks, a ∈ t

/-- The items reachable from the roots in a run whose calls of process were started
for the items taken, in this order: the arguments that os.Lstat resolves, and the
entries that Readdir lists in a reachable directory when process is called for it,
each under the path process builds for it. -/
inductive Reach (cfg : Config) (taken : List dirItem) : dirItem → Prop
  | root (k : Nat) (arg : Path) (info : FileInfo) :
      cfg.args[k]? = some arg → cfg.lstat k arg = some info → Reach cfg taken ⟨arg, info⟩
  | child (k : Nat) (d : dirItem) (contents : List FileInfo) (c : FileInfo) :
      Reach cfg taken d → taken[k]? = some d → d.info.isDir = true →
      (cfg.fs k).readdir d.name = some contents →
      c ∈ contents → Reach cfg taken ⟨filepath.Join [d.name, c.name], c⟩

/-- The filesystem of the scenario tree a/(b.txt, c/(d.txt)), every call succeeding. -/
def treeFS : FS where
  openOk := fun _ => true
  readdir := fun p =>
    if p = "a".toList then some [⟨"b.txt".toList, false⟩, ⟨"c".toList, true⟩]
    else if p = "a/c".toList then some [⟨"d.txt".toList, false⟩]
    else none
  closeOk := fun _ => true
  removeOk := fun _ => true

/-- The command line: rmrf a, with the default limit and queue size. -/
def treeCfg : Config where
  depth := 20
  qcap := 20000
  args := ["a".toList]
  lstat := fun _ p => if p = "a".toList then some ⟨"a".toList, true⟩ else none
  fs := fun _ => treeFS

/-- A schedule of the run on treeCfg in which every goroutine runs to its send on done
as soon as it is started. -/
def treeSchedule : List Move :=
  [Move.task 0, Move.main (some 0), Move.main none, Move.task 0, Move.task 0, Move.task 0,
   Move.main (some 0), Move.main none, Move.main none, Move.task 0, Move.main (some 0),
   Move.main none, Move.main none, Move.task 0, Move.task 0, Move.main (some 0),
   Move.main none, Move.main none, Move.task 0, Move.main (some 0),
   Move.main none, Move.main none, Move.main none]

/-- The state in which the run of treeSchedule reaches finished. -/
def treeFinal : Sys :=
  { pc := PC.fin, goroutinesOutstanding := 0, queue := [], tasks := [],
    hist := [Action.push ⟨"a".toList, ⟨"a".toList, true⟩⟩, Action.sendDone,
             Action.push ⟨"a/b.txt".toList, ⟨"b.txt".toList, false⟩⟩,
             Action.push ⟨"a/c".toList, ⟨"c".toList, true⟩⟩,
             Action.sendDirs "a".toList, Action.sendDone,
             Action.remove "a/b.txt".toList, Action.sendDone,
             Action.push ⟨"a/c/d.txt".toList, ⟨"d.txt".toList, false⟩⟩,
             Action.sendDirs "a/c".toList, Action.sendDone,
             Action.remove "a/c/d.txt".toList, Action.sendDone],
    spawned := [⟨"a".toList, ⟨"a".toList, true⟩⟩,
                ⟨"a/b.txt".toList, ⟨"b.txt".toList, false⟩⟩,
                ⟨"a/c".toList, ⟨"c".toList, true⟩⟩,
                ⟨"a/c/d.txt".toList, ⟨"d.txt".toList, false⟩⟩],
    doneRecv := 5, ids := [],
    log := [(0, Action.push ⟨"a".toList, ⟨"a".toList, true⟩⟩), (0, Action.sendDone),
            (1, Action.push ⟨"a/b.txt".toList, ⟨"b.txt".toList, false⟩⟩),
            (1, Action.push ⟨"a/c".toList, ⟨"c".toList, true⟩⟩),
            (1, Action.sendDirs "a".toList), (1, Action.sendDone),
            (2, Action.remove "a/b.txt".toList), (2, Action.sendDone),
            (3, Action.push ⟨"a/c/d.txt".toList, ⟨"d.txt".toList, false⟩⟩),
            (3, Action.sendDirs "a/c".toList), (3, Action.sendDone),
            (4, Action.remove "a/c/d.txt".toList), (4, Action.sendDone)] }

/-- The shape of the statements a goroutine still has to perform: there is at least
one, the send on done occurs last only, and the last one is the send on done or
log.Fatalf. -/
def wellFormed : List Action → Bool
  | [] => false
  | [a] => a = Action.sendDone || a = Action.fatal
  | a :: b :: rest => a != Action.sendDone && wellFormed (b :: rest)

/-- The scenario tree with a queue of capacity 1: rmrf -q 1 a. -/
def tightCfg : Config where
  depth := 20
  qcap := 1
  args := ["a".toList]
  lstat := fun _ p => if p = "a".toList then some ⟨"a".toList, true⟩ else none
  fs := fun _ => treeFS

/-- A state of the run on tightCfg: kickstart has returned, process of a has queued
a/b.txt and is about to queue a/c, and main is at the blocking receive of line 267. -/
def stuckState : Sys :=
  { pc := PC.wait, goroutinesOutstanding := 1,
    queue := [⟨"a/b.txt".toList, ⟨"b.txt".toList, false⟩⟩],
    tasks := [[Action.push ⟨"a/c".toList, ⟨"c".toList, true⟩⟩, Action.sendDirs "a".toList,
               Action.sendDone]],
    hist := [Action.push ⟨"a".toList, ⟨"a".toList, true⟩⟩, Action.sendDone,
             Action.push ⟨"a/b.txt".toList, ⟨"b.txt".toList, false⟩⟩],
    spawned := [⟨"a".toList, ⟨"a".toList, true⟩⟩],
    doneRecv := 1, ids := [1],
    log := [(0, Action.push ⟨"a".toList, ⟨"a".toList, true⟩⟩), (0, Action.sendDone),
            (1, Action.push ⟨"a/b.txt".toList, ⟨"b.txt".toList, false⟩⟩)] }

/-- The state of the run on treeCfg after kickstart has queued a and main has received
its value on done in the first select. -/
def zeroState : Sys :=
  { pc := PC.mid, goroutinesOutstanding := 0,
    queue := [⟨"a".toList, ⟨"a".toList, true⟩⟩], tasks := [],
    hist := [Action.push ⟨"a".toList, ⟨"a".toList, true⟩⟩, Action.sendDone],
    spawned := [], doneRecv := 1, ids := [],
    log := [(0, Action.push ⟨"a".toList, ⟨"a".toList, true⟩⟩), (0, Action.sendDone)] }

/-- A state of the run on tightCfg in which kickstart has queued a and waits to send
on done, main has started process for a and is at the blocking receive, and process
of a has filled the queue with a/b.txt. -/
def fullState : Sys :=
  { pc := PC.wait, goroutinesOutstanding := 2,
    queue := [⟨"a/b.txt".toList, ⟨"b.txt".toList, false⟩⟩],
    tasks := [[Action.sendDone],
              [Action.push ⟨"a/c".toList, ⟨"c".toList, true⟩⟩, Action.sendDirs "a".toList,
               Action.sendDone]],
    hist := [Action.push ⟨"a".toList, ⟨"a".toList, true⟩⟩,
             Action.push ⟨"a/b.txt".toList, ⟨"b.txt".toList, false⟩⟩],
    spawned := [⟨"a".toList, ⟨"a".toList, true⟩⟩],
    doneRecv := 0, ids := [0, 1],
    log := [(0, Action.push ⟨"a".toList, ⟨"a".toList, true⟩⟩),
            (1, Action.push ⟨"a/b.txt".toList, ⟨"b.txt".toList, false⟩⟩)] }

/-- Three plain files x, y, z, every call succeeding. -/
def filesFS : FS where
  openOk := fun _ => true
  readdir := fun _ => none
  closeOk := fun _ => true
  removeOk := fun _ => true

/-- The command line: rmrf -n 3 x y z. -/
def filesCfg : Config where
  depth := 3
  qcap := 20000
  args := ["x".toList, "y".toList, "z".toList]
  lstat := fun _ p => some ⟨p, false⟩
  fs := fun _ => filesFS

/-- The state of the run on filesCfg after kickstart has queued x, y and z and main has
started process for x: main is at the blocking receive with two entries queued. -/
def twoState : Sys :=
  { pc := PC.wait, goroutinesOutstanding := 2,
    queue := [⟨"y".toList, ⟨"y".toList, false⟩⟩, ⟨"z".toList, ⟨"z".toList, false⟩⟩],
    tasks := [[Action.sendDone], [Action.remove "x".toList, Action.sendDone]],
    hist := [Action.push ⟨"x".toList, ⟨"x".toList, false⟩⟩,
             Action.push ⟨"y".toList, ⟨"y".toList, false⟩⟩,
             Action.push ⟨"z".toList, ⟨"z".toList, false⟩⟩],
    spawned := [⟨"x".toList, ⟨"x".toList, false⟩⟩],
    doneRecv := 0, ids := [0, 1],
    log := [(0, Action.push ⟨"x".toList, ⟨"x".toList, false⟩⟩),
            (0, Action.push ⟨"y".toList, ⟨"y".toList, false⟩⟩),
            (0, Action.push ⟨"z".toList, ⟨"z".toList, false⟩⟩)] }

/-- The statements goroutine id has performed so far according to the log, in
order. -/
def performed (log : List (Nat × Action)) (id : Nat) : List Action :=
  (log.filter (fun e => e.1 = id)).map Prod.snd

/-- The statements goroutine id performs from its start to its return: those of
kickstart for 0 and, for k + 1, those of the k-th call of process, made for the k-th
item taken. -/
def program (cfg : Config) (taken : List dirItem) : Nat → List Action
  | 0 => kickstart cfg.lstat 0 cfg.args
  | k + 1 =>
    match taken[k]? with
    | some x => process (cfg.fs k) x
    | none => []

/-- The log agrees with the programs of the goroutines: ids names the goroutines of
tasks without repetition; an outstanding goroutine has performed an initial part of
its program, has the rest still to perform and has not sent on done; a goroutine that
is no longer outstanding has performed its whole program, the send on done last; a
goroutine not yet started has performed nothing. -/
structure Trace (cfg : Config) (s : Sys) : Prop where
  len : s.ids.length = s.tasks.length
  nodup : s.ids.Nodup
  bound : ∀ id ∈ s.ids, id ≤ s.spawned.length
  pending : s.pc ≠ PC.exited → ∀ (j id : Nat) (t : List Action),
    s.ids[j]? = some id → s.tasks[j]? = some t →
    performed s.log id ++ t = program cfg s.spawned id
  returned : ∀ id : Nat, id ≤ s.spawned.length → id ∉ s.ids →
    performed s.log id = program cfg s.spawned id ∧
    (performed s.log id).getLast? = some Action.sendDone
  fresh : ∀ id : Nat, s.spawned.length < id → performed s.log id = []
  silent : ∀ id ∈ s.ids, Action.sendDone ∉ performed s.log id
  initial : ∀ id : Nat, ∃ rest, performed s.log id ++ rest = program cfg s.spawned id

/-! ## Example inputs -/

/-- Example input of dirTracker: the directories of two roots a and x. -/
def exampleDirs : List Path := ["a".toList, "x/y/z".toList, "a/c".toList, "x".toList]

/-- The batches dirTracker emits for exampleDirs. -/
def exampleBatches : List (List Path) :=
  [["x/y/z".toList], ["a/c".toList], ["a".toList, "x".toList]]

/-- A directory a that holds one empty directory c, named on the command line with a
trailing slash; every call succeeds. -/
def slashFS : FS where
  openOk := fun _ => true
  readdir := fun p =>
    if p = "a/".toList then some [⟨"c".toList, true⟩]
    else if p = "a/c".toList then some []
    else none
  closeOk := fun _ => true
  removeOk := fun _ => true

/-- The command line: rmrf a/ with the default limit and queue size. -/
def slashCfg : Config where
  depth := 20
  qcap := 20000
  args := ["a/".toList]
  lstat := fun _ p => if p = "a/".toList then some ⟨"a".toList, true⟩ else none
  fs := fun _ => slashFS

/-- A schedule of the run on slashCfg up to finished. -/
def slashSchedule : List Move :=
  [Move.task 0, Move.main (some 0), Move.main none, Move.task 0, Move.task 0,
   Move.main (some 0), Move.main none, Move.main none, Move.task 0, Move.main (some 0),
   Move.main none, Move.main none, Move.main none]

/-- The state in which the run of slashSchedule reaches finished. -/
def slashFinal : Sys :=
  { pc := PC.fin, goroutinesOutstanding := 0, queue := [], tasks := [],
    hist := [Action.push ⟨"a/".toList, ⟨"a".toList, true⟩⟩, Action.sendDone,
             Action.push ⟨"a/c".toList, ⟨"c".toList, true⟩⟩,
             Action.sendDirs "a/".toList, Action.sendDone,
             Action.sendDirs "a/c".toList, Action.sendDone],
    spawned := [⟨"a/".toList, ⟨"a".toList, true⟩⟩, ⟨"a/c".toList, ⟨"c".toList, true⟩⟩],
    doneRecv := 3, ids := [],
    log := [(0, Action.push ⟨"a/".toList, ⟨"a".toList, true⟩⟩), (0, Action.sendDone),
            (1, Action.push ⟨"a/c".toList, ⟨"c".toList, true⟩⟩),
            (1, Action.sendDirs "a/".toList), (1, Action.sendDone),
            (2, Action.sendDirs "a/c".toList), (2, Action.sendDone)] }

/-- A directory d whose Open and Readdir succeed, listing one file c, and whose Close
fails. -/
def closeFailFS : FS where
  openOk := fun _ => true
  readdir := fun _ => some [⟨"c".toList, false⟩]
  closeOk := fun _ => false
  removeOk := fun _ => true

/-- A filesystem in which os.Remove, os.Open and Readdir fail. -/
def failFS : FS where
  openOk := fun _ => false
  readdir := fun _ => none
  closeOk := fun _ => true
  removeOk := fun _ => false

/-- A filesystem in which os.Open succeeds and Readdir fails. -/
def listFailFS : FS where
  openOk := fun _ => true
  readdir := fun _ => none
  closeOk := fun _ => true
  removeOk := fun _ => true

/-- The file item f. -/
def fileItem : dirItem := ⟨"f".toList, ⟨"f".toList, false⟩⟩

/-- The directory item a of the scenario tree. -/
def dirA : dirItem := ⟨"a".toList, ⟨"a".toList, true⟩⟩

/-- The directory item d. -/
def dirD : dirItem := ⟨"d".toList, ⟨"d".toList, true⟩⟩

/-! ## dirTracker -/

theorem getD_append_replicate_nil (l : List (List Path)) (k j : Nat) :
    (l ++ List.replicate k []).getD j [] = l.getD j [] := by
  simp only [List.getD_eq_getElem?_getD, List.getElem?_append, List.getElem?_replicate]
  by_cases h : j < l.length
  · simp [h]
  · have h2 : l.length ≤ j := Nat.le_of_not_lt h
    simp only [h, if_false, List.getElem?_eq_none h2]
    split <;> rfl

theorem copy_make_elems (arr : Slice) (n : Nat) (h : arr.elems.length ≤ n) :
    (copy (make n n) arr).elems = arr.elems ++ List.replicate (n - arr.elems.length) [] := by
  simp [copy, make, Nat.min_eq_right h, List.take_of_length_le]

theorem holds_make : Holds [] (make 1 1) := by
  refine ⟨by simp [make], by simp [make], by simp, ?_⟩
  intro j
  cases j <;> simp [make]

theorem holds_grow (ds : List Path) (arr : Slice) (i : Nat) (h : Holds ds arr)
    (hi : arr.cap ≤ i) : Holds ds (copy (make (i * 10) (i * 10)) arr) ∧
      i < (copy (make (i * 10) (i * 10)) arr).elems.length := by
  obtain ⟨hc, hpos, hlt, hb⟩ := h
  have hlen : arr.elems.length ≤ i * 10 := by omega
  have he := copy_make_elems arr (i * 10) hlen
  have hl : (copy (make (i * 10) (i * 10)) arr).elems.length = i * 10 := by
    rw [he]; simp; omega
  refine ⟨⟨?_, ?_, ?_, ?_⟩, ?_⟩
  · rw [hl]; simp [copy, make]
  · rw [hl]; omega
  · intro d hd; rw [hl]; have := hlt d hd; omega
  · intro j; rw [he, getD_append_replicate_nil]; exact hb j
  · rw [hl]; omega

theorem holds_append (ds : List Path) (arr : Slice) (d : Path) (h : Holds ds arr)
    (hi : strings.Count d '/' < arr.elems.length) :
    Holds (ds ++ [d])
      ⟨arr.elems.set (strings.Count d '/') (arr.elems.getD (strings.Count d '/') [] ++ [d]),
        arr.cap⟩ := by
  obtain ⟨hc, hpos, hlt, hb⟩ := h
  refine ⟨by simpa using hc, by simpa using hpos, ?_, ?_⟩
  · intro x hx
    simp only [List.length_set]
    rcases List.mem_append.1 hx with hx | hx
    · exact hlt x hx
    · simp at hx; subst hx; exact hi
  · intro j
    simp only [List.filter_append]
    by_cases hj : strings.Count d '/' = j
    · subst hj
      simp [List.getD_eq_getElem?_getD, List.getElem?_set, hi]
      have := hb (strings.Count d '/')
      simpa [List.getD_eq_getElem?_getD, List.getElem?_eq_getElem hi] using this
    · have := hb j
      simp only [List.getD_eq_getElem?_getD] at this ⊢
      simp [List.getElem?_set, hj, this]

theorem collect_holds (ds : List Path) (arr : Slice) (d : Path) (h : Holds ds arr) :
    ∃ next, collect arr d = some next ∧ Holds (ds ++ [d]) next := by
  unfold collect
  simp only
  by_cases hi : arr.cap ≤ strings.Count d '/'
  · obtain ⟨hg, hlt⟩ := holds_grow ds arr _ h hi
    simp only [hi, if_true, hlt, dite_true]
    refine ⟨_, rfl, ?_⟩
    have := holds_append ds _ d hg hlt
    simpa [List.getD_eq_getElem?_getD, List.getElem?_eq_getElem hlt] using this
  · have hlt : strings.Count d '/' < arr.elems.length := by
      have := h.1; omega
    simp only [hi, if_false, hlt, dite_true]
    refine ⟨_, rfl, ?_⟩
    have := holds_append ds _ d h hlt
    simpa [List.getD_eq_getElem?_getD, List.getElem?_eq_getElem hlt] using this

theorem collectAll_holds (rest : List Path) :
    ∀ (ds : List Path) (arr : Slice), Holds ds arr →
      ∃ last, collectAll arr rest = some last ∧ Holds (ds ++ rest) last := by
  induction rest with
  | nil => intro ds arr h; exact ⟨arr, rfl, by simpa using h⟩
  | cons d rest ih =>
    intro ds arr h
    obtain ⟨next, hn, hh⟩ := collect_holds ds arr d h
    obtain ⟨last, hl, hh2⟩ := ih (ds ++ [d]) next hh
    refine ⟨last, ?_, by simpa using hh2⟩
    simp [collectAll, hn, hl]

theorem emitLoop_mem (ds : List Path) (elems : List (List Path))
    (hb : ∀ j, elems.getD j [] = ds.filter (fun d => strings.Count d '/' = j)) (k : Nat) :
    ∀ b ∈ emitLoop elems k, b ≠ [] ∧
      ∃ j, j < k ∧ b = ds.filter (fun d => strings.Count d '/' = j) := by
  induction k with
  | zero => intro b hb; simp [emitLoop] at hb
  | succ k ih =>
    intro b hmem
    unfold emitLoop at hmem
    split at hmem
    · rename_i hpos
      rcases List.mem_cons.1 hmem with h | h
      · subst h
        refine ⟨?_, k, Nat.lt_succ_self k, hb k⟩
        intro h0; rw [h0] at hpos; simp at hpos
      · obtain ⟨h1, j, hj, h2⟩ := ih b h
        exact ⟨h1, j, Nat.lt_succ_of_lt hj, h2⟩
    · obtain ⟨h1, j, hj, h2⟩ := ih b hmem
      exact ⟨h1, j, Nat.lt_succ_of_lt hj, h2⟩

theorem filter_lt_succ_perm (ds : List Path) (k : Nat) :
    (ds.filter (fun d => strings.Count d '/' = k) ++
      ds.filter (fun d => decide (strings.Count d '/' < k))).Perm
      (ds.filter (fun d => decide (strings.Count d '/' < k + 1))) := by
  induction ds with
  | nil => simp
  | cons d ds ih =>
    simp only [List.filter_cons]
    by_cases h1 : strings.Count d '/' = k
    · have h2 : ¬ strings.Count d '/' < k := by omega
      have h3 : strings.Count d '/' < k + 1 := by omega
      simp only [h1, h2, h3, decide_True, decide_False, if_true, if_false] 
      simp only [h1] at ih
      simpa using ih
    · by_cases h2 : strings.Count d '/' < k
      · have h3 : strings.Count d '/' < k + 1 := by omega
        simp only [h1, h2, h3, decide_True, decide_False, if_true, if_false]
        exact (List.perm_middle).trans (List.Perm.cons d ih)
      · have h3 : ¬ strings.Count d '/' < k + 1 := by omega
        simp only [h1, h2, h3, decide_True, decide_False, if_true, if_false]
        exact ih

theorem emitLoop_perm (ds : List Path) (elems : List (List Path))
    (hb : ∀ j, elems.getD j [] = ds.filter (fun d => strings.Count d '/' = j)) (k : Nat) :
    (emitLoop elems k).flatten.Perm (ds.filter (fun d => decide (strings.Count d '/' < k))) := by
  induction k with
  | zero => simp [emitLoop]
  | succ k ih =>
    have hstep : (elems.getD k [] ++ (emitLoop elems k).flatten).Perm
        (ds.filter (fun d => decide (strings.Count d '/' < k + 1))) := by
      rw [hb k]
      exact (List.Perm.append_left _ ih).trans (filter_lt_succ_perm ds k)
    unfold emitLoop
    split
    · simpa using hstep
    · rename_i hpos
      have h0 : elems.getD k [] = [] := by
        cases hh : elems.getD k [] with
        | nil => rfl
        | cons a l => rw [hh] at hpos; simp at hpos
      rw [h0] at hstep
      simpa using hstep

theorem emitLoop_descends (ds : List Path) (elems : List (List Path))
    (hb : ∀ j, elems.getD j [] = ds.filter (fun d => strings.Count d '/' = j)) (k : Nat) :
    (emitLoop elems k).Pairwise
      (fun b c => ∀ p ∈ b, ∀ r ∈ c, strings.Count r '/' < strings.Count p '/') := by
  induction k with
  | zero => simp [emitLoop]
  | succ k ih =>
    unfold emitLoop
    split
    · refine List.Pairwise.cons ?_ ih
      intro c hc p hp r hr
      obtain ⟨_, j, hj, hcj⟩ := emitLoop_mem ds elems hb k c hc
      rw [hb k] at hp
      rw [hcj] at hr
      have h1 := (List.mem_filter.1 hp).2
      have h2 := (List.mem_filter.1 hr).2
      simp at h1 h2
      omega
    · exact ih

theorem dirTracker_eq (dirs : List Path) :
    ∃ dirArray, collectAll (make 1 1) dirs = some dirArray ∧ Holds dirs dirArray ∧
      dirTracker dirs = some (emitLoop dirArray.elems dirArray.elems.length) := by
  obtain ⟨last, hl, hh⟩ := collectAll_holds dirs [] (make 1 1) holds_make
  simp only [List.nil_append] at hh
  refine ⟨last, hl, hh, ?_⟩
  simp [dirTracker, hl, hh.2.1]

/-- C3: for every sequence of paths received on dirs, dirTracker never indexes
dirArray out of range (it returns its batches, and so does the collect loop after
every number n of received paths), after any number of received paths every bucket
holds all the paths collected so far with that count of "/" (growth loses none), the
concatenation of the emitted batches is a permutation of the received sequence, no
batch is empty, and every batch is the received paths of one count in arrival
order. -/
theorem dirTracker_emits_each_path_once (dirs : List Path) :
    ∃ batches, dirTracker dirs = some batches ∧
      batches.flatten.Perm dirs ∧
      (∀ b ∈ batches, b ≠ []) ∧
      (∀ b ∈ batches, ∃ i, b = dirs.filter (fun d => strings.Count d '/' = i)) ∧
      (∀ n, ∃ dirArray, collectAll (make 1 1) (dirs.take n) = some dirArray ∧
        ∀ i, dirArray.elems.getD i [] =
          (dirs.take n).filter (fun d => strings.Count d '/' = i)) := by
  obtain ⟨arr, _, hh, hd⟩ := dirTracker_eq dirs
  refine ⟨_, hd, ?_, ?_, ?_, ?_⟩
  · have hp := emitLoop_perm dirs arr.elems hh.2.2.2 arr.elems.length
    have hall : dirs.filter (fun d => decide (strings.Count d '/' < arr.elems.length)) = dirs := by
      rw [List.filter_eq_self]
      intro d hdm
      simpa using hh.2.2.1 d hdm
    rw [hall] at hp
    exact hp
  · intro b hb
    exact (emitLoop_mem dirs arr.elems hh.2.2.2 _ b hb).1
  · intro b hb
    obtain ⟨_, j, _, hj⟩ := emitLoop_mem dirs arr.elems hh.2.2.2 _ b hb
    exact ⟨j, hj⟩
  · intro n
    obtain ⟨a, ha, hha, _⟩ := dirTracker_eq (dirs.take n)
    exact ⟨a, ha, hha.2.2.2⟩

/-- C4: the batches emitted by dirTracker are strictly depth-descending: the paths of
one batch all have the same count of "/", and every path of batch i has a strictly
greater count of "/" than every path of batch i+1. -/
theorem dirTracker_batches_descend (dirs : List Path) (batches : List (List Path))
    (h : dirTracker dirs = some batches) :
    (∀ b ∈ batches, ∀ p ∈ b, ∀ r ∈ b, strings.Count p '/' = strings.Count r '/') ∧
    (∀ i (hi : i + 1 < batches.length), ∀ p ∈ batches[i], ∀ r ∈ batches[i + 1],
      strings.Count r '/' < strings.Count p '/') := by
  obtain ⟨arr, _, hh, hd⟩ := dirTracker_eq dirs
  rw [hd] at h
  have hb : batches = emitLoop arr.elems arr.elems.length := (Option.some.inj h).symm
  subst hb
  constructor
  · intro b hb p hp r hr
    obtain ⟨_, j, _, hj⟩ := emitLoop_mem dirs arr.elems hh.2.2.2 _ b hb
    rw [hj] at hp hr
    have h1 := (List.mem_filter.1 hp).2
    have h2 := (List.mem_filter.1 hr).2
    simp at h1 h2
    omega
  · intro i hi
    have hpw := emitLoop_descends dirs arr.elems hh.2.2.2 arr.elems.length
    rw [List.pairwise_iff_getElem] at hpw
    exact hpw i (i + 1) (by omega) hi (Nat.lt_succ_self i)

/-- Witness of C4 on the directories of the tree a/(b.txt, c/(d.txt)) and of a second
root x. -/
theorem dirTracker_batches_descend_witness :
    dirTracker exampleDirs = some exampleBatches ∧
      ((∀ b ∈ exampleBatches, ∀ p ∈ b, ∀ r ∈ b,
          strings.Count p '/' = strings.Count r '/') ∧
       (∀ i (hi : i + 1 < exampleBatches.length),
          ∀ p ∈ exampleBatches[i], ∀ r ∈ exampleBatches[i + 1],
            strings.Count r '/' < strings.Count p '/')) :=
  ⟨by decide, dirTracker_batches_descend exampleDirs exampleBatches (by decide)⟩

/-! ## process and paths -/

/-- The statements of process for a directory item whose Open, Readdir and Close
succeed: one send on queue per entry in listing order, then the send on dirs, then
the send on done; os.Remove is not called. -/
theorem process_directory_ok (fs : FS) (item : dirItem) (contents : List FileInfo)
    (hd : item.info.isDir = true) (ho : fs.openOk item.name = true)
    (hl : fs.readdir item.name = some contents) (hc : fs.closeOk item.name = true) :
    process fs item =
      contents.map (fun c => Action.push ⟨filepath.Join [item.name, c.name], c⟩)
        ++ [Action.sendDirs item.name, Action.sendDone] := by
  simp [process, hd, ho, hl, hc]

/-- The statements of process for an item that is no directory: the call of
os.Remove, then the send on done if it succeeded and log.Fatalf if it failed. -/
theorem process_file_eq (fs : FS) (item : dirItem) (hd : item.info.isDir = false) :
    process fs item =
      [Action.remove item.name,
        if fs.removeOk item.name = true then Action.sendDone else Action.fatal] := by
  cases hr : fs.removeOk item.name <;> simp [process, hd, hr]

theorem count_sendDone_pushes (xs : List dirItem) :
    (xs.map Action.push).count Action.sendDone = 0 := by
  induction xs with
  | nil => rfl
  | cons x xs ih => simp [List.count_cons, ih]

/-- C1 (what the code does): for the argument a/ and the entry c, the path process
builds is a/c, whose count of "/" equals that of a/; in the run of rmrf a/ on a
directory a holding a directory c, dirTracker receives a/ and a/c and emits them in
one batch, the parent first. For the argument a// the child a/c has the smaller
count and is emitted in a later batch than its parent. For the argument a of the
scenario tree the batch of a/c does come before the batch of a. -/
theorem trailing_slash_same_batch :
    filepath.Join ["a/".toList, "c".toList] = "a/c".toList ∧
    strings.Count (filepath.Join ["a/".toList, "c".toList]) '/' =
      strings.Count "a/".toList '/' ∧
    Reachable slashCfg slashFinal ∧ slashFinal.pc = PC.fin ∧
    collected slashFinal = ["a/".toList, "a/c".toList] ∧
    dirTracker (collected slashFinal) = some [["a/".toList, "a/c".toList]] ∧
    strings.Count (filepath.Join ["a//".toList, "c".toList]) '/' <
      strings.Count "a//".toList '/' ∧
    dirTracker ["a//".toList, "a/c".toList] = some [["a//".toList], ["a/c".toList]] ∧
    dirTracker (collected treeFinal) = some [["a/c".toList], ["a".toList]] :=
  ⟨by decide, by decide, ⟨_, slashSchedule, rfl, by decide⟩, rfl, by decide, by decide,
    by decide, by decide, by decide⟩

/-- C5 (what the code does): for the directory item d whose Open and Readdir
succeed, listing the file c, and whose Close fails, process calls log.Fatalf and
performs nothing else: no send on queue, on dirs or on done. -/
theorem process_close_failure :
    dirD.info.isDir = true ∧ closeFailFS.openOk dirD.name = true ∧
    closeFailFS.readdir dirD.name = some [⟨"c".toList, false⟩] ∧
    closeFailFS.closeOk dirD.name = false ∧
    process closeFailFS dirD = [Action.fatal] :=
  ⟨rfl, rfl, rfl, rfl, by decide⟩

/-- C9 (counterexample): for a file item whose os.Remove fails, and for a directory
item whose os.Open or Readdir fails, process ends in log.Fatalf and sends nothing on
done. -/
theorem process_failure_sends_no_done :
    process failFS fileItem = [Action.remove "f".toList, Action.fatal] ∧
    (process failFS fileItem).count Action.sendDone = 0 ∧
    process failFS dirD = [Action.fatal] ∧
    process listFailFS dirD = [Action.fatal] :=
  ⟨by decide, by decide, by decide, by decide⟩

/-- The statements of one call of process: when no filesystem call fails they hold
exactly one send on done, as the last statement, and no log.Fatalf; when os.Remove
fails (file item) or os.Open or Readdir fails (directory item) they end in log.Fatalf
and hold no send on done. -/
theorem process_statements (fs : FS) (item : dirItem) :
    (item.info.isDir = false → fs.removeOk item.name = true →
      (process fs item).count Action.sendDone = 1 ∧
      (process fs item).getLast? = some Action.sendDone ∧
      Action.fatal ∉ process fs item) ∧
    (item.info.isDir = false → fs.removeOk item.name = false →
      (process fs item).count Action.sendDone = 0 ∧
      (process fs item).getLast? = some Action.fatal) ∧
    (item.info.isDir = true → fs.openOk item.name = true →
      ∀ contents, fs.readdir item.name = some contents → fs.closeOk item.name = true →
      (process fs item).count Action.sendDone = 1 ∧
      (process fs item).getLast? = some Action.sendDone ∧
      Action.fatal ∉ process fs item) ∧
    (item.info.isDir = true → (fs.openOk item.name = false ∨ fs.readdir item.name = none) →
      (process fs item).count Action.sendDone = 0 ∧
      (process fs item).getLast? = some Action.fatal) := by
  refine ⟨?_, ?_, ?_, ?_⟩
  · intro hd hr
    rw [process_file_eq fs item hd, if_pos hr]
    simp [List.count_cons]
  · intro hd hr
    rw [process_file_eq fs item hd, hr]
    simp [List.count_cons]
  · intro hd ho contents hl hc
    rw [process_directory_ok fs item contents hd ho hl hc]
    refine ⟨?_, ?_, ?_⟩
    · have := count_sendDone_pushes
        (contents.map (fun c => (⟨filepath.Join [item.name, c.name], c⟩ : dirItem)))
      simp only [List.map_map, Function.comp_def] at this
      rw [List.count_append, this]
      simp [List.count_cons]
    · simp [List.getLast?_append]
    · simp
  · intro hd hfail
    rcases hfail with ho | hl
    · simp [process, hd, ho, List.count_cons]
    · by_cases ho : fs.openOk item.name = false
      · simp [process, hd, ho, List.count_cons]
      · simp [process, hd, ho, hl, List.count_cons]

/-! ## The loop of main: steps and invariants -/

theorem recvDone_sound (cfg : Config) (s next : Sys) (i : Nat) (pc : PC)
    (hpc : s.pc = PC.top ∧ pc = PC.mid ∨ s.pc = PC.wait ∧ pc = PC.top)
    (h : recvDone s i pc = some next) : Step cfg s next := by
  unfold recvDone at h
  split at h
  · rename_i ht
    cases h
    exact Step.recv s i pc hpc ht
  · cases h

theorem taskStep_sound (cfg : Config) (s next : Sys) (i : Nat)
    (h1 : s.pc ≠ PC.fin) (h2 : s.pc ≠ PC.exited)
    (h : taskStep cfg s i = some next) : Step cfg s next := by
  unfold taskStep at h
  split at h
  · rename_i item rest ht
    split at h
    · rename_i hq
      cases h
      exact Step.push s i item rest h1 h2 ht hq
    · cases h
  · rename_i d rest ht
    cases h
    exact Step.quiet s i _ rest h1 h2 ht (Or.inl ⟨d, rfl⟩)
  · rename_i p rest ht
    cases h
    exact Step.quiet s i _ rest h1 h2 ht (Or.inr ⟨p, rfl⟩)
  · rename_i rest ht
    cases h
    exact Step.fatal s i rest h1 h2 ht
  · cases h

theorem mainStep_sound (cfg : Config) (s next : Sys) (sender : Option Nat)
    (h : mainStep cfg s sender = some next) : Step cfg s next := by
  unfold mainStep at h
  split at h
  · rename_i i hpc
    exact recvDone_sound cfg s next i PC.mid (Or.inl ⟨hpc, rfl⟩) h
  · rename_i hpc
    cases h
    exact Step.skip s hpc
  · rename_i hpc
    split at h
    · rename_i hg
      split at h
      · rename_i item rest hq
        cases h
        exact Step.spawn s item rest hpc hg hq
      · rename_i hq
        cases h
        exact Step.empty s hpc hg hq
    · rename_i hg
      cases h
      exact Step.full s hpc hg
  · rename_i i hpc
    split at h
    · rename_i hg
      split at h
      · rename_i item rest ht
        cases h
        exact Step.handoff s i item rest hpc hg.1 hg.2 ht
      · cases h
    · cases h
  · rename_i hpc
    split at h
    · rename_i hg
      cases h
      exact Step.finish s hpc hg
    · rename_i hg
      cases h
      exact Step.again s hpc hg
  · rename_i i hpc
    exact recvDone_sound cfg s next i PC.top (Or.inr ⟨hpc, rfl⟩) h
  · cases h

theorem step_sound (cfg : Config) (s next : Sys) (m : Move)
    (h : step cfg s m = some next) : Step cfg s next := by
  cases m with
  | task i =>
    simp only [step] at h
    split at h
    · cases h
    · rename_i hpc
      exact taskStep_sound cfg s next i (fun e => hpc (Or.inl e)) (fun e => hpc (Or.inr e)) h
  | main sender => exact mainStep_sound cfg s next sender h

theorem run_append (cfg : Config) (ms ns : List Move) :
    ∀ s, run cfg s (ms ++ ns) = (run cfg s ms).bind (fun t => run cfg t ns) := by
  induction ms with
  | nil => intro s; rfl
  | cons m ms ih =>
    intro s
    simp only [List.cons_append, run]
    cases hs : step cfg s m with
    | none => rfl
    | some t => exact ih t

theorem reachable_step (cfg : Config) (s next : Sys) (m : Move)
    (hr : Reachable cfg s) (h : step cfg s m = some next) : Reachable cfg next := by
  obtain ⟨s0, ms, h0, hrun⟩ := hr
  refine ⟨s0, ms ++ [m], h0, ?_⟩
  rw [run_append, hrun]
  simp [run, h]

theorem reachable_run (cfg : Config) (ms : List Move) :
    ∀ s last, Reachable cfg s → run cfg s ms = some last → Reachable cfg last := by
  induction ms with
  | nil => intro s last hr h; cases h; exact hr
  | cons m ms ih =>
    intro s last hr h
    simp only [run] at h
    cases hs : step cfg s m with
    | none => rw [hs] at h; cases h
    | some t =>
      rw [hs] at h
      exact ih t last (reachable_step cfg s t m hr hs) h

/-- Induction over the reachable states: a property that holds on entry to the loop
and is kept by every step from a reachable state holds in every reachable state. -/
theorem reachable_induction (cfg : Config) (P : Sys → Prop)
    (h0 : ∀ s0, mainStart cfg = some s0 → P s0)
    (hs : ∀ s next, Reachable cfg s → P s → Step cfg s next → P next) :
    ∀ s, Reachable cfg s → P s := by
  have key : ∀ (ms : List Move) (s last : Sys), Reachable cfg s → P s →
      run cfg s ms = some last → P last := by
    intro ms
    induction ms with
    | nil => intro s last _ hp h; cases h; exact hp
    | cons m ms ih =>
      intro s last hr hp h
      simp only [run] at h
      cases hstep : step cfg s m with
      | none => rw [hstep] at h; cases h
      | some t =>
        rw [hstep] at h
        exact ih t last (reachable_step cfg s t m hr hstep)
          (hs s t hr hp (step_sound cfg s t m hstep)) h
  intro s hr
  obtain ⟨s0, ms, hs0, hrun⟩ := hr
  exact key ms s0 s ⟨s0, [], hs0, rfl⟩ (h0 s0 hs0) hrun

theorem mainStart_eq (cfg : Config) (s0 : Sys) (h : mainStart cfg = some s0) :
    s0 = ⟨PC.top, 1, [], [kickstart cfg.lstat 0 cfg.args], [], [], 0, [0], []⟩ := by
  unfold mainStart at h
  split at h
  · cases h
  · cases h; rfl

theorem length_eraseIdx_of_get {α : Type} (l : List α) (i : Nat) (a : α)
    (h : l[i]? = some a) : ((l.eraseIdx i).length : Int) = (l.length : Int) - 1 := by
  obtain ⟨hi, _⟩ := List.getElem?_eq_some.1 h
  rw [List.length_eraseIdx, if_pos hi]
  omega

/-- The counter of main equals the number of goroutines that have not completed
their send on done, and equals 1 + started - received. -/
theorem counter_counts (cfg : Config) (s : Sys) (h : Reachable cfg s) :
    s.goroutinesOutstanding = s.tasks.length ∧
    s.goroutinesOutstanding = 1 + (s.spawned.length : Int) - (s.doneRecv : Int) := by
  refine reachable_induction cfg
    (fun s => s.goroutinesOutstanding = s.tasks.length ∧
      s.goroutinesOutstanding = 1 + (s.spawned.length : Int) - (s.doneRecv : Int)) ?_ ?_ s h
  · intro s0 h0
    rw [mainStart_eq cfg s0 h0]
    simp
  · intro s next _ hp hstep
    obtain ⟨h1, h2⟩ := hp
    cases hstep with
    | push i x rest _ _ ht hq => simpa using ⟨h1, h2⟩
    | quiet i a rest _ _ ht ha => simpa using ⟨h1, h2⟩
    | fatal i rest _ _ ht => exact ⟨h1, h2⟩
    | recv i nxt hpc ht =>
      have hl := length_eraseIdx_of_get s.tasks i _ ht
      simp only
      constructor
      · rw [hl, h1]
      · rw [h2]; push_cast; omega
    | skip _ => exact ⟨h1, h2⟩
    | spawn item rest _ _ _ =>
      simp only [List.length_append, List.length_singleton]
      constructor
      · rw [h1]; push_cast; rfl
      · rw [h2]; push_cast; omega
    | handoff i item rest _ _ _ _ =>
      simp only [List.length_append, List.length_singleton, List.length_set]
      constructor
      · rw [h1]; push_cast; rfl
      · rw [h2]; push_cast; omega
    | empty _ _ _ => exact ⟨h1, h2⟩
    | full _ _ => exact ⟨h1, h2⟩
    | finish _ _ => exact ⟨h1, h2⟩
    | again _ _ => exact ⟨h1, h2⟩

/-- With a limit of at least 1 the counter never exceeds the limit. -/
theorem counter_le_depth (cfg : Config) (hn : 1 ≤ cfg.depth) (s : Sys)
    (h : Reachable cfg s) : s.goroutinesOutstanding ≤ cfg.depth := by
  refine reachable_induction cfg (fun s => s.goroutinesOutstanding ≤ cfg.depth) ?_ ?_ s h
  · intro s0 h0
    rw [mainStart_eq cfg s0 h0]
    exact hn
  · intro s next _ hp hstep
    cases hstep with
    | push i x rest _ _ ht hq => exact hp
    | quiet i a rest _ _ ht ha => exact hp
    | fatal i rest _ _ ht => exact hp
    | recv i nxt hpc ht => simp only; omega
    | skip _ => exact hp
    | spawn item rest _ hg _ => simp only; omega
    | handoff i item rest _ hg _ _ => simp only; omega
    | empty _ _ _ => exact hp
    | full _ _ => exact hp
    | finish _ _ => exact hp
    | again _ _ => exact hp

/-- Whatever the limit, the counter never exceeds 2, and it is at most 1 everywhere
but at the blocking receive: after starting a goroutine main always waits for a
value on done. -/
theorem counter_le_two (cfg : Config) (s : Sys) (h : Reachable cfg s) :
    s.goroutinesOutstanding ≤ 2 ∧
    (s.pc ≠ PC.wait → s.pc ≠ PC.exited → s.goroutinesOutstanding ≤ 1) := by
  refine reachable_induction cfg
    (fun s => s.goroutinesOutstanding ≤ 2 ∧
      (s.pc ≠ PC.wait → s.pc ≠ PC.exited → s.goroutinesOutstanding ≤ 1)) ?_ ?_ s h
  · intro s0 h0
    rw [mainStart_eq cfg s0 h0]
    simp
  · intro s next _ hp hstep
    obtain ⟨h1, h2⟩ := hp
    cases hstep with
    | push i x rest _ _ ht hq => exact ⟨h1, h2⟩
    | quiet i a rest _ _ ht ha => exact ⟨h1, h2⟩
    | fatal i rest _ _ ht => exact ⟨h1, fun _ hx => absurd rfl hx⟩
    | recv i nxt hpc ht =>
      simp only
      refine ⟨by omega, fun _ _ => by omega⟩
    | skip hpc =>
      refine ⟨h1, fun _ _ => h2 (by rw [hpc]; decide) (by rw [hpc]; decide)⟩
    | spawn item rest hpc hg _ =>
      have := h2 (by rw [hpc]; decide) (by rw [hpc]; decide)
      simp only
      refine ⟨by omega, fun hx => absurd rfl hx⟩
    | handoff i item rest hpc hg _ _ =>
      have := h2 (by rw [hpc]; decide) (by rw [hpc]; decide)
      simp only
      refine ⟨by omega, fun hx => absurd rfl hx⟩
    | empty hpc _ _ =>
      refine ⟨h1, fun _ _ => h2 (by rw [hpc]; decide) (by rw [hpc]; decide)⟩
    | full hpc _ => exact ⟨h1, fun hx => absurd rfl hx⟩
    | finish hpc _ =>
      refine ⟨h1, fun _ _ => h2 (by rw [hpc]; decide) (by rw [hpc]; decide)⟩
    | again hpc _ => exact ⟨h1, fun hx => absurd rfl hx⟩

/-- With a limit of at least 1, main blocks on done only while some goroutine is
outstanding. -/
theorem wait_positive (cfg : Config) (hn : 1 ≤ cfg.depth) (s : Sys)
    (h : Reachable cfg s) : s.pc = PC.wait → 0 < s.goroutinesOutstanding := by
  refine reachable_induction cfg (fun s => s.pc = PC.wait → 0 < s.goroutinesOutstanding)
    ?_ ?_ s h
  · intro s0 h0
    rw [mainStart_eq cfg s0 h0]
    simp
  · intro s next hr hp hstep
    have hc := (counter_counts cfg s hr).1
    have hnn : (0 : Int) ≤ s.tasks.length := Int.natCast_nonneg _
    cases hstep with
    | push i x rest hf _ ht hq => exact hp
    | quiet i a rest hf _ ht ha => exact hp
    | fatal i rest _ _ ht => intro hx; cases hx
    | recv i nxt hpc ht =>
      intro hx
      simp only at hx
      rcases hpc with ⟨_, hn⟩ | ⟨_, hn⟩ <;> rw [hn] at hx <;> cases hx
    | skip hpc => intro hx; cases hx
    | spawn item rest hpc hg hq => intro _; simp only; omega
    | handoff i item rest hpc hg _ _ => intro _; simp only; omega
    | empty hpc hg hq => intro hx; cases hx
    | full hpc hg => intro _; simp only; omega
    | finish hpc hg => intro hx; cases hx
    | again hpc hg => intro _; simp only; omega

/-- Control invariant of the loop: in the default branch of the queue select the
queue is still empty unless some goroutine is outstanding; at finished the counter
is 0 and the queue is empty. -/
theorem control_invariant (cfg : Config) (s : Sys) (h : Reachable cfg s) :
    (s.pc = PC.polled → s.queue = [] ∨ s.tasks ≠ []) ∧
    (s.pc = PC.fin → s.goroutinesOutstanding = 0 ∧ s.queue = []) := by
  refine reachable_induction cfg
    (fun s => (s.pc = PC.polled → s.queue = [] ∨ s.tasks ≠ []) ∧
      (s.pc = PC.fin → s.goroutinesOutstanding = 0 ∧ s.queue = [])) ?_ ?_ s h
  · intro s0 h0
    rw [mainStart_eq cfg s0 h0]
    simp
  · intro s next hr hp hstep
    obtain ⟨h2, h3⟩ := hp
    have hc := (counter_counts cfg s hr).1
    cases hstep with
    | push i x rest hf _ ht hq =>
      refine ⟨?_, fun hx => absurd hx hf⟩
      intro _
      right
      intro he
      have hlen : s.tasks.length = 0 := by simpa using congrArg List.length he
      obtain ⟨hi, _⟩ := List.getElem?_eq_some.1 ht
      omega
    | quiet i a rest hf _ ht ha =>
      refine ⟨?_, fun hx => absurd hx hf⟩
      intro hx
      rcases h2 hx with hq | hne
      · exact Or.inl hq
      · right
        intro he
        have hlen : s.tasks.length = 0 := by simpa using congrArg List.length he
        obtain ⟨hi, _⟩ := List.getElem?_eq_some.1 ht
        omega
    | fatal i rest _ _ ht =>
      refine ⟨?_, ?_⟩ <;> intro hx <;> cases hx
    | recv i nxt hpc ht =>
      refine ⟨?_, ?_⟩ <;> intro hx <;> simp only at hx <;>
        rcases hpc with ⟨_, hn⟩ | ⟨_, hn⟩ <;> rw [hn] at hx <;> cases hx
    | skip hpc =>
      refine ⟨?_, ?_⟩ <;> intro hx <;> cases hx
    | spawn item rest hpc hg hq =>
      refine ⟨?_, ?_⟩ <;> intro hx <;> cases hx
    | handoff i item rest hpc hg _ _ =>
      refine ⟨?_, ?_⟩ <;> intro hx <;> cases hx
    | empty hpc hg hq =>
      refine ⟨?_, ?_⟩
      · intro _; exact Or.inl hq
      · intro hx; cases hx
    | full hpc hg =>
      refine ⟨?_, ?_⟩ <;> intro hx <;> cases hx
    | finish hpc hg =>
      refine ⟨?_, ?_⟩
      · intro hx; cases hx
      · intro _
        refine ⟨hg, ?_⟩
        rcases h2 hpc with hq | hne
        · exact hq
        · exfalso
          apply hne
          have : s.tasks.length = 0 := by omega
          exact List.length_eq_zero.1 this
    | again hpc hg =>
      refine ⟨?_, ?_⟩ <;> intro hx <;> cases hx

/-- An unbuffered queue holds no item. -/
theorem queue_empty_of_unbuffered (cfg : Config) (hz : cfg.qcap = 0) (s : Sys)
    (h : Reachable cfg s) : ¬ ∃ y ys, s.queue = y :: ys := by
  refine reachable_induction cfg (fun s => ¬ ∃ y ys, s.queue = y :: ys) ?_ ?_ s h
  · intro s0 h0
    rw [mainStart_eq cfg s0 h0]
    simp
  · intro s next _ hp hstep
    cases hstep with
    | push i x rest _ _ ht hq => rw [hz] at hq; exact absurd hq (Nat.not_lt_zero _)
    | quiet i a rest _ _ ht ha => exact hp
    | fatal i rest _ _ ht => exact hp
    | recv i nxt hpc ht => exact hp
    | skip _ => exact hp
    | spawn item rest _ _ hq => exact absurd ⟨item, rest, hq⟩ hp
    | handoff i item rest _ _ _ _ => exact hp
    | empty _ _ _ => exact hp
    | full _ _ => exact hp
    | finish _ _ => exact hp
    | again _ _ => exact hp

theorem mem_tasks_set (tasks : List (List Action)) (i : Nat) (hd : Action)
    (rest t : List Action) (a : Action) (hi : tasks[i]? = some (hd :: rest))
    (ht : t ∈ tasks) (ha : a ∈ t) : a = hd ∨ ∃ u ∈ tasks.set i rest, a ∈ u := by
  obtain ⟨j, hj⟩ := List.mem_iff_getElem?.1 ht
  by_cases hji : i = j
  · subst hji
    rw [hi] at hj
    cases hj
    rcases List.mem_cons.1 ha with h | h
    · exact Or.inl h
    · right
      obtain ⟨hlt, _⟩ := List.getElem?_eq_some.1 hi
      exact ⟨rest, List.mem_set _ _ hlt _, h⟩
  · right
    refine ⟨t, ?_, ha⟩
    apply List.mem_iff_getElem?.2
    refine ⟨j, ?_⟩
    rw [List.getElem?_set, if_neg hji]
    exact hj

theorem mem_tasks_erase (tasks : List (List Action)) (i : Nat)
    (t : List Action) (a : Action) (hi : tasks[i]? = some [Action.sendDone])
    (ht : t ∈ tasks) (ha : a ∈ t) :
    a = Action.sendDone ∨ ∃ u ∈ tasks.eraseIdx i, a ∈ u := by
  obtain ⟨j, hj⟩ := List.mem_iff_getElem?.1 ht
  by_cases hji : j = i
  · subst hji
    rw [hi] at hj
    cases hj
    left
    simpa using ha
  · right
    refine ⟨t, ?_, ha⟩
    obtain ⟨hlt, he⟩ := List.getElem?_eq_some.1 hj
    exact List.mem_eraseIdx_iff_getElem.2 ⟨j, hlt, hji, he⟩

/-- No step loses an action: what was accounted for stays accounted for. -/
theorem accounted_step (cfg : Config) (s next : Sys) (a : Action)
    (hstep : Step cfg s next) (h : Accounted s a) : Accounted next a := by
  unfold Accounted at h ⊢
  cases hstep with
  | push i x rest _ _ ht hq =>
    rcases h with h | ⟨t, htm, hat⟩
    · exact Or.inl (List.mem_append_left _ h)
    · rcases mem_tasks_set s.tasks i _ rest t a ht htm hat with h | h
      · left; rw [h]; simp
      · exact Or.inr h
  | quiet i b rest _ _ ht hb =>
    rcases h with h | ⟨t, htm, hat⟩
    · exact Or.inl (List.mem_append_left _ h)
    · rcases mem_tasks_set s.tasks i _ rest t a ht htm hat with h | h
      · left; rw [h]; simp
      · exact Or.inr h
  | fatal i rest _ _ ht =>
    rcases h with h | h
    · exact Or.inl (List.mem_append_left _ h)
    · exact Or.inr h
  | recv i nxt hpc ht =>
    rcases h with h | ⟨t, htm, hat⟩
    · exact Or.inl (List.mem_append_left _ h)
    · rcases mem_tasks_erase s.tasks i t a ht htm hat with h | h
      · left; rw [h]; simp
      · exact Or.inr h
  | skip _ => exact h
  | spawn item rest _ _ _ =>
    rcases h with h | ⟨t, htm, hat⟩
    · exact Or.inl h
    · exact Or.inr ⟨t, List.mem_append_left _ htm, hat⟩
  | handoff i item rest _ _ _ ht =>
    rcases h with h | ⟨t, htm, hat⟩
    · exact Or.inl (List.mem_append_left _ h)
    · rcases mem_tasks_set s.tasks i _ rest t a ht htm hat with h | ⟨u, hu, hau⟩
      · left; rw [h]; simp
      · exact Or.inr ⟨u, List.mem_append_left _ hu, hau⟩
  | empty _ _ _ => exact h
  | full _ _ => exact h
  | finish _ _ => exact h
  | again _ _ => exact h

theorem pushed_append_single (hist : List Action) (a : Action) :
    pushed (hist ++ [a]) = pushed hist ++ (match a with | Action.push x => [x] | _ => []) := by
  unfold pushed
  rw [List.filterMap_append]
  cases a <;> rfl

theorem mem_pushed (hist : List Action) (x : dirItem) :
    x ∈ pushed hist ↔ Action.push x ∈ hist := by
  unfold pushed
  rw [List.mem_filterMap]
  constructor
  · rintro ⟨a, ha, he⟩
    cases a <;> simp at he
    subst he
    exact ha
  · intro h
    exact ⟨_, h, rfl⟩

/-- History invariant: the items sent on queue are, in order, those main has taken
followed by those still in the buffer; log.Fatalf ends the program; every statement
of kickstart is accounted for; and every statement of the k-th call of process is
accounted for. -/
theorem history_invariant (cfg : Config) (s : Sys) (h : Reachable cfg s) :
    pushed s.hist = s.spawned ++ s.queue ∧
    (Action.fatal ∈ s.hist → s.pc = PC.exited) ∧
    (∀ a ∈ kickstart cfg.lstat 0 cfg.args, Accounted s a) ∧
    (∀ k x, s.spawned[k]? = some x → ∀ a ∈ process (cfg.fs k) x, Accounted s a) := by
  refine reachable_induction cfg
    (fun s => pushed s.hist = s.spawned ++ s.queue ∧
      (Action.fatal ∈ s.hist → s.pc = PC.exited) ∧
      (∀ a ∈ kickstart cfg.lstat 0 cfg.args, Accounted s a) ∧
      (∀ k x, s.spawned[k]? = some x → ∀ a ∈ process (cfg.fs k) x, Accounted s a))
    ?_ ?_ s h
  · intro s0 h0
    rw [mainStart_eq cfg s0 h0]
    refine ⟨rfl, ?_, ?_, ?_⟩
    · intro hx; simp at hx
    · intro a ha; exact Or.inr ⟨_, List.mem_singleton.2 rfl, ha⟩
    · intro k x hx; simp at hx
  · intro s next hr hp hstep
    obtain ⟨h1, h2, h3, h4⟩ := hp
    have hacc : ∀ a, Accounted s a → Accounted next a :=
      fun a => accounted_step cfg s next a hstep
    have h3n : ∀ a ∈ kickstart cfg.lstat 0 cfg.args, Accounted next a :=
      fun a ha => hacc a (h3 a ha)
    refine ⟨?_, ?_, h3n, ?_⟩
    · cases hstep with
      | push i x rest _ _ ht hq =>
        simp only [pushed_append_single, h1, List.append_assoc]
      | quiet i b rest _ _ ht hb =>
        simp only [pushed_append_single]
        rcases hb with ⟨d, hd⟩ | ⟨p, hp⟩
        · subst hd; simpa using h1
        · subst hp; simpa using h1
      | fatal i rest _ _ ht => simpa [pushed_append_single] using h1
      | recv i nxt hpc ht => simpa [pushed_append_single] using h1
      | skip _ => exact h1
      | spawn item rest _ _ hq => simp only [h1, hq, List.append_assoc, List.singleton_append]
      | handoff i item rest hpc hg hz ht =>
        have hempty : s.queue = [] := by
          cases hqq : s.queue with
          | nil => rfl
          | cons y ys => exact absurd ⟨y, ys, hqq⟩ (queue_empty_of_unbuffered cfg hz s hr)
        simp only [pushed_append_single, h1, hempty, List.append_nil]
      | empty _ _ _ => exact h1
      | full _ _ => exact h1
      | finish _ _ => exact h1
      | again _ _ => exact h1
    · cases hstep with
      | push i x rest _ hx ht hq =>
        intro hm
        simp only [List.mem_append, List.mem_singleton] at hm
        rcases hm with hm | hm
        · exact absurd (h2 hm) hx
        · cases hm
      | quiet i b rest _ hx ht hb =>
        intro hm
        simp only [List.mem_append, List.mem_singleton] at hm
        rcases hm with hm | hm
        · exact absurd (h2 hm) hx
        · rcases hb with ⟨d, hd⟩ | ⟨p, hp⟩
          · subst hd; cases hm
          · subst hp; cases hm
      | fatal i rest _ _ ht => intro _; rfl
      | recv i nxt hpc ht =>
        intro hm
        simp only [List.mem_append, List.mem_singleton] at hm
        rcases hm with hm | hm
        · have := h2 hm
          rcases hpc with ⟨hp, _⟩ | ⟨hp, _⟩ <;> rw [hp] at this <;> cases this
        · cases hm
      | skip hp => intro hm; have := h2 hm; rw [hp] at this; cases this
      | spawn item rest hp _ hq => intro hm; have := h2 hm; rw [hp] at this; cases this
      | handoff i item rest hp _ _ _ =>
        intro hm
        simp only [List.mem_append, List.mem_singleton] at hm
        rcases hm with hm | hm
        · have := h2 hm; rw [hp] at this; cases this
        · cases hm
      | empty hp _ _ => intro hm; have := h2 hm; rw [hp] at this; cases this
      | full hp _ => intro hm; have := h2 hm; rw [hp] at this; cases this
      | finish hp _ => intro hm; have := h2 hm; rw [hp] at this; cases this
      | again hp _ => intro hm; have := h2 hm; rw [hp] at this; cases this
    · have old : ∀ k x, s.spawned[k]? = some x →
          ∀ a ∈ process (cfg.fs k) x, Accounted next a :=
        fun k x hk a ha => hacc a (h4 k x hk a ha)
      have fresh : ∀ (item : dirItem) (tasks : List (List Action)) (k : Nat) (x : dirItem),
          next.tasks = tasks ++ [process (cfg.fs s.spawned.length) item] →
          (s.spawned ++ [item])[k]? = some x →
          ∀ a ∈ process (cfg.fs k) x, Accounted next a := by
        intro item tasks k x htasks hk a ha
        by_cases hlt : k < s.spawned.length
        · rw [List.getElem?_append_left hlt] at hk
          exact old k x hk a ha
        · rw [List.getElem?_append_right (Nat.le_of_not_lt hlt)] at hk
          obtain ⟨hlen, hx⟩ := List.getElem?_eq_some.1 hk
          simp only [List.length_singleton] at hlen
          have hk0 : k = s.spawned.length := by omega
          have hxi : x = item := by
            subst hk0
            simpa using hx.symm
          subst hk0
          subst hxi
          right
          refine ⟨_, ?_, ha⟩
          rw [htasks]
          exact List.mem_append_right _ (List.mem_singleton.2 rfl)
      cases hstep with
      | push i x rest _ _ ht hq => exact old
      | quiet i b rest _ _ ht hb => exact old
      | fatal i rest _ _ ht => exact old
      | recv i nxt hpc ht => exact old
      | skip _ => exact old
      | spawn item rest _ _ hq => exact fun k x hk => fresh item _ k x rfl hk
      | handoff i item rest _ _ _ ht => exact fun k x hk => fresh item _ k x rfl hk
      | empty _ _ _ => exact old
      | full _ _ => exact old
      | finish _ _ => exact old
      | again _ _ => exact old

theorem wellFormed_tail (a : Action) (rest : List Action) (h : wellFormed (a :: rest) = true)
    (h1 : a ≠ Action.sendDone) (h2 : a ≠ Action.fatal) : wellFormed rest = true := by
  cases rest with
  | nil => simp [wellFormed, h1, h2] at h
  | cons b rest => simp [wellFormed] at h; exact h.2

theorem wellFormed_sendDone (rest : List Action)
    (h : wellFormed (Action.sendDone :: rest) = true) : rest = [] := by
  cases rest with
  | nil => rfl
  | cons b rest => simp [wellFormed] at h

theorem wellFormed_push_append (xs : List dirItem) (t : List Action)
    (h : wellFormed t = true) :
    wellFormed (xs.map Action.push ++ t) = true := by
  induction xs with
  | nil => simpa using h
  | cons x xs ih =>
    cases hrest : xs.map Action.push ++ t with
    | nil => rw [hrest] at ih; simp [wellFormed] at ih
    | cons b rest =>
      rw [hrest] at ih
      simp [List.map_cons, hrest, wellFormed, ih]

theorem wellFormed_process (fs : FS) (x : dirItem) : wellFormed (process fs x) = true := by
  unfold process
  split
  · split
    · rfl
    · split
      · rfl
      · split
        · rfl
        · rename_i contents _ _
          have := wellFormed_push_append
            (contents.map (fun c => (⟨filepath.Join [x.name, c.name], c⟩ : dirItem)))
            [Action.sendDirs x.name, Action.sendDone] (by simp [wellFormed])
          simpa [List.map_map, Function.comp_def, List.append_assoc] using this
  · split <;> simp [wellFormed]

theorem wellFormed_kickstart (lstat : Nat → Path → Option FileInfo) (args : List Path) :
    ∀ k, wellFormed (kickstart lstat k args) = true := by
  induction args with
  | nil => intro k; simp [kickstart, wellFormed]
  | cons a rest ih =>
    intro k
    unfold kickstart
    cases lstat k a with
    | none => simp [wellFormed]
    | some info =>
      simp only
      have ihk := ih (k + 1)
      cases hk : kickstart lstat (k + 1) rest with
      | nil => rw [hk] at ihk; simp [wellFormed] at ihk
      | cons b t => rw [hk] at ihk; simp [wellFormed, ihk]

/-- Every goroutine that has not returned still has a well-formed sequence of
statements to perform. -/
theorem tasks_wellFormed (cfg : Config) (s : Sys) (h : Reachable cfg s) :
    ∀ t ∈ s.tasks, wellFormed t = true := by
  refine reachable_induction cfg (fun s => ∀ t ∈ s.tasks, wellFormed t = true) ?_ ?_ s h
  · intro s0 h0
    rw [mainStart_eq cfg s0 h0]
    intro t ht
    simp only [List.mem_singleton] at ht
    rw [ht]
    exact wellFormed_kickstart cfg.lstat cfg.args 0
  · intro s next _ hp hstep
    have hset : ∀ i a rest, s.tasks[i]? = some (a :: rest) → a ≠ Action.sendDone →
        a ≠ Action.fatal → ∀ t ∈ s.tasks.set i rest, wellFormed t = true := by
      intro i a rest ht h1 h2 t htm
      have hmem : a :: rest ∈ s.tasks := List.mem_iff_getElem?.2 ⟨i, ht⟩
      rcases List.mem_or_eq_of_mem_set htm with h | h
      · exact hp t h
      · rw [h]; exact wellFormed_tail a rest (hp _ hmem) h1 h2
    cases hstep with
    | push i x rest _ _ ht hq => exact hset i _ rest ht (by simp) (by simp)
    | quiet i a rest _ _ ht ha =>
      rcases ha with ⟨d, hd⟩ | ⟨p, hd⟩ <;> subst hd <;>
        exact hset i _ rest ht (by simp) (by simp)
    | fatal i rest _ _ ht => exact hp
    | recv i nxt hpc ht => intro t htm; exact hp t (List.mem_of_mem_eraseIdx htm)
    | skip _ => exact hp
    | spawn item rest _ _ _ =>
      intro t htm
      rcases List.mem_append.1 htm with h | h
      · exact hp t h
      · rw [List.mem_singleton.1 h]; exact wellFormed_process _ item
    | handoff i item rest _ _ _ ht =>
      intro t htm
      rcases List.mem_append.1 htm with h | h
      · exact hset i _ rest ht (by simp) (by simp) t h
      · rw [List.mem_singleton.1 h]; exact wellFormed_process _ item
    | empty _ _ _ => exact hp
    | full _ _ => exact hp
    | finish _ _ => exact hp
    | again _ _ => exact hp


/-! ## The loop of main: termination detection and the counter -/

theorem kickstart_pushes (lstat : Nat → Path → Option FileInfo) (args : List Path) :
    ∀ (j k : Nat) (arg : Path) (info : FileInfo),
      Action.fatal ∉ kickstart lstat j args → args[k]? = some arg →
      lstat (j + k) arg = some info → Action.push ⟨arg, info⟩ ∈ kickstart lstat j args := by
  induction args with
  | nil => intro j k arg info _ ha; simp at ha
  | cons b rest ih =>
    intro j k arg info hf ha hl
    unfold kickstart at hf ⊢
    cases hb : lstat j b with
    | none => rw [hb] at hf; simp at hf
    | some binfo =>
      rw [hb] at hf
      simp only [List.mem_cons, not_or] at hf
      simp only
      cases k with
      | zero =>
        simp only [List.getElem?_cons_zero, Option.some.injEq] at ha
        subst ha
        rw [Nat.add_zero, hb] at hl
        cases hl
        exact List.mem_cons_self _ _
      | succ k =>
        simp only [List.getElem?_cons_succ] at ha
        refine List.mem_cons_of_mem _ (ih (j + 1) k arg info hf.2 ha ?_)
        rw [← hl]
        congr 1
        omega

theorem process_file (fs : FS) (x : dirItem) (hx : x.info.isDir = false) :
    Action.remove x.name ∈ process fs x := by
  unfold process
  rw [hx]
  simp only [Bool.false_eq_true, if_false]
  split <;> simp

theorem process_dir (fs : FS) (x : dirItem) (hx : x.info.isDir = true)
    (hf : Action.fatal ∉ process fs x) :
    Action.sendDirs x.name ∈ process fs x ∧
    ∀ contents, fs.readdir x.name = some contents → ∀ c ∈ contents,
      Action.push ⟨filepath.Join [x.name, c.name], c⟩ ∈ process fs x := by
  unfold process at hf ⊢
  rw [hx] at hf ⊢
  simp only [if_true] at hf ⊢
  by_cases ho : fs.openOk x.name = false
  · rw [if_pos ho] at hf; simp at hf
  · rw [if_neg ho] at hf ⊢
    cases hr : fs.readdir x.name with
    | none => rw [hr] at hf; simp at hf
    | some contents =>
      rw [hr] at hf
      simp only at hf ⊢
      by_cases hc : fs.closeOk x.name = false
      · rw [if_pos hc] at hf; simp at hf
      · rw [if_neg hc]
        refine ⟨by simp, ?_⟩
        intro cs hcs c hmem
        cases hcs
        simp only [List.mem_append, List.mem_map, List.mem_singleton]
        exact Or.inl (Or.inl ⟨c, hmem, rfl⟩)

theorem process_file_ok (fs : FS) (x : dirItem) (hx : x.info.isDir = false)
    (hf : Action.fatal ∉ process fs x) : fs.removeOk x.name = true := by
  cases hr : fs.removeOk x.name with
  | true => rfl
  | false => simp [process, hx, hr] at hf

theorem mem_collected (s : Sys) (d : Path) :
    d ∈ collected s ↔ Action.sendDirs d ∈ s.hist := by
  unfold collected
  rw [List.mem_filterMap]
  constructor
  · rintro ⟨a, ha, he⟩
    cases a <;> simp at he
    subst he
    exact ha
  · intro h
    exact ⟨_, h, rfl⟩

/-- C2: whenever the loop of main is at finished, goroutinesOutstanding is 0, the
queue is empty, no goroutine is outstanding, the items sent on queue are exactly the
items main has taken, one value was received on done for kickstart and for each call
of process, every statement of each of these calls was performed, log.Fatalf was not
called, os.Remove succeeded for every file taken, and every item reachable from the
roots was sent on queue, taken by main and then, if a file, removed with os.Remove
and, if a directory, sent on dirs and received by dirTracker. -/
theorem finished_all_processed (cfg : Config) (s : Sys) (hr : Reachable cfg s)
    (hfin : s.pc = PC.fin) :
    s.goroutinesOutstanding = 0 ∧ s.queue = [] ∧ s.tasks = [] ∧
    pushed s.hist = s.spawned ∧ s.doneRecv = s.spawned.length + 1 ∧
    (∀ k x, s.spawned[k]? = some x → ∀ a ∈ process (cfg.fs k) x, a ∈ s.hist) ∧
    Action.fatal ∉ s.hist ∧
    (∀ k x, s.spawned[k]? = some x → x.info.isDir = false →
      (cfg.fs k).removeOk x.name = true) ∧
    (∀ x, Reach cfg s.spawned x → Action.push x ∈ s.hist ∧ x ∈ s.spawned ∧
      (x.info.isDir = false → Action.remove x.name ∈ s.hist) ∧
      (x.info.isDir = true → x.name ∈ collected s)) := by
  obtain ⟨hg, hq⟩ := (control_invariant cfg s hr).2 hfin
  obtain ⟨hc1, hc2⟩ := counter_counts cfg s hr
  obtain ⟨hp, hfat, hk, hcov⟩ := history_invariant cfg s hr
  have ht : s.tasks = [] := by
    have : s.tasks.length = 0 := by omega
    exact List.length_eq_zero.1 this
  have hps : pushed s.hist = s.spawned := by rw [hp, hq, List.append_nil]
  have hacc : ∀ a, Accounted s a → a ∈ s.hist := by
    intro a ha
    rcases ha with h | ⟨t, htm, _⟩
    · exact h
    · rw [ht] at htm; cases htm
  have hnf : Action.fatal ∉ s.hist := by
    intro hm
    have := hfat hm
    rw [hfin] at this
    cases this
  have hproc : ∀ k x, s.spawned[k]? = some x →
      ∀ a ∈ process (cfg.fs k) x, a ∈ s.hist :=
    fun k x hx a ha => hacc a (hcov k x hx a ha)
  have hnfp : ∀ k x, s.spawned[k]? = some x → Action.fatal ∉ process (cfg.fs k) x :=
    fun k x hx hm => hnf (hproc k x hx _ hm)
  have htaken : ∀ x, Action.push x ∈ s.hist → x ∈ s.spawned := by
    intro x hx
    rw [← hps]
    exact (mem_pushed s.hist x).2 hx
  have hpushed : ∀ x, Reach cfg s.spawned x → Action.push x ∈ s.hist := by
    intro x hx
    induction hx with
    | root k arg info ha hl =>
      have hnk : Action.fatal ∉ kickstart cfg.lstat 0 cfg.args :=
        fun hm => hnf (hacc _ (hk _ hm))
      exact hacc _ (hk _ (kickstart_pushes cfg.lstat cfg.args 0 k arg info hnk ha
        (by rw [Nat.zero_add]; exact hl)))
    | child k d contents c _ hkd hd hrd hc _ =>
      exact hproc k d hkd _
        ((process_dir (cfg.fs k) d hd (hnfp k d hkd)).2 contents hrd c hc)
  refine ⟨hg, hq, ht, hps, ?_, hproc, hnf, ?_, ?_⟩
  · omega
  · intro k x hx hfile
    exact process_file_ok (cfg.fs k) x hfile (hnfp k x hx)
  · intro x hx
    have hpx := hpushed x hx
    have htx := htaken x hpx
    obtain ⟨k, hkx⟩ := List.mem_iff_getElem?.1 htx
    refine ⟨hpx, htx, ?_, ?_⟩
    · intro hfile
      exact hproc k x hkx _ (process_file (cfg.fs k) x hfile)
    · intro hdir
      exact (mem_collected s x.name).2
        (hproc k x hkx _ (process_dir (cfg.fs k) x hdir (hnfp k x hkx)).1)

theorem reachable_of_run (cfg : Config) (s0 s : Sys) (ms : List Move)
    (h0 : mainStart cfg = some s0) (h : run cfg s0 ms = some s) : Reachable cfg s :=
  ⟨s0, ms, h0, h⟩

/-- Witness of C2: the run of treeSchedule on the scenario tree reaches finished in
treeFinal. -/
theorem finished_all_processed_witness :
    Reachable treeCfg treeFinal ∧ treeFinal.pc = PC.fin ∧
    Reach treeCfg treeFinal.spawned ⟨"a/c/d.txt".toList, ⟨"d.txt".toList, false⟩⟩ ∧
    (treeFinal.goroutinesOutstanding = 0 ∧ treeFinal.queue = [] ∧ treeFinal.tasks = [] ∧
      pushed treeFinal.hist = treeFinal.spawned ∧
      treeFinal.doneRecv = treeFinal.spawned.length + 1 ∧
      (∀ k x, treeFinal.spawned[k]? = some x →
        ∀ a ∈ process (treeCfg.fs k) x, a ∈ treeFinal.hist) ∧
      Action.fatal ∉ treeFinal.hist ∧
      (∀ k x, treeFinal.spawned[k]? = some x → x.info.isDir = false →
        (treeCfg.fs k).removeOk x.name = true) ∧
      (∀ x, Reach treeCfg treeFinal.spawned x →
        Action.push x ∈ treeFinal.hist ∧ x ∈ treeFinal.spawned ∧
        (x.info.isDir = false → Action.remove x.name ∈ treeFinal.hist) ∧
        (x.info.isDir = true → x.name ∈ collected treeFinal))) :=
  ⟨⟨_, treeSchedule, rfl, by decide⟩, rfl,
    Reach.child 2 ⟨"a/c".toList, ⟨"c".toList, true⟩⟩ [⟨"d.txt".toList, false⟩]
      ⟨"d.txt".toList, false⟩
      (Reach.child 0 ⟨"a".toList, ⟨"a".toList, true⟩⟩
        [⟨"b.txt".toList, false⟩, ⟨"c".toList, true⟩] ⟨"c".toList, true⟩
        (Reach.root 0 "a".toList ⟨"a".toList, true⟩ rfl rfl) rfl rfl rfl (by decide))
      rfl rfl rfl (by decide),
    finished_all_processed treeCfg treeFinal ⟨_, treeSchedule, rfl, by decide⟩ rfl⟩

/-- C6: for every limit n of at least 1, in every state of the loop of main reachable
in any run, the counter satisfies 0 ≤ goroutinesOutstanding ≤ n, it equals 1 plus the
number of process goroutines started minus the number of values received on done,
and the number of goroutines outstanding (which the counter equals) is at most n. -/
theorem counter_within_limit (cfg : Config) (hn : 1 ≤ cfg.depth) (s : Sys)
    (hr : Reachable cfg s) :
    0 ≤ s.goroutinesOutstanding ∧ s.goroutinesOutstanding ≤ cfg.depth ∧
    s.goroutinesOutstanding = 1 + (s.spawned.length : Int) - (s.doneRecv : Int) ∧
    s.goroutinesOutstanding = (s.tasks.length : Int) ∧
    (s.tasks.length : Int) ≤ cfg.depth := by
  obtain ⟨h1, h2⟩ := counter_counts cfg s hr
  have h3 := counter_le_depth cfg hn s hr
  have h4 : (0 : Int) ≤ s.tasks.length := Int.natCast_nonneg _
  exact ⟨by omega, h3, h2, h1, by omega⟩

/-- Witness of C6 on the run of treeSchedule. -/
theorem counter_within_limit_witness :
    1 ≤ treeCfg.depth ∧ Reachable treeCfg treeFinal ∧
    (0 ≤ treeFinal.goroutinesOutstanding ∧ treeFinal.goroutinesOutstanding ≤ treeCfg.depth ∧
      treeFinal.goroutinesOutstanding =
        1 + (treeFinal.spawned.length : Int) - (treeFinal.doneRecv : Int) ∧
      treeFinal.goroutinesOutstanding = (treeFinal.tasks.length : Int) ∧
      (treeFinal.tasks.length : Int) ≤ treeCfg.depth) :=
  ⟨by decide, ⟨_, treeSchedule, rfl, by decide⟩,
    counter_within_limit treeCfg (by decide) treeFinal ⟨_, treeSchedule, rfl, by decide⟩⟩

/-- C7 (what the code does): whatever the limit, goroutinesOutstanding never exceeds
2, and it is at most 1 at every point of the loop other than the blocking receive of
line 267: after starting a goroutine main always blocks on done. -/
theorem counter_never_exceeds_two (cfg : Config) (s : Sys) (hr : Reachable cfg s) :
    s.goroutinesOutstanding ≤ 2 ∧
    (s.pc ≠ PC.wait → s.pc ≠ PC.exited → s.goroutinesOutstanding ≤ 1) :=
  counter_le_two cfg s hr

/-- Witness of C7: with limit 3 and three files queued, main has started one
goroutine, is blocked on done with headroom and two entries left in the queue, and
cannot move before a value arrives on done. -/
theorem counter_never_exceeds_two_witness :
    Reachable filesCfg twoState ∧ twoState.pc = PC.wait ∧
    twoState.goroutinesOutstanding < filesCfg.depth ∧ twoState.queue.length = 2 ∧
    step filesCfg twoState (Move.main none) = none ∧
    (twoState.goroutinesOutstanding ≤ 2 ∧
      (twoState.pc ≠ PC.wait → twoState.pc ≠ PC.exited → twoState.goroutinesOutstanding ≤ 1)) :=
  ⟨⟨_, [Move.task 0, Move.task 0, Move.task 0, Move.main none, Move.main none], rfl,
      by decide⟩, rfl, by decide, rfl, rfl,
    counter_never_exceeds_two filesCfg twoState
      ⟨_, [Move.task 0, Move.task 0, Move.task 0, Move.main none, Move.main none], rfl,
        by decide⟩⟩

/-- C8 (counterexample): in the run of rmrf a on the scenario tree, the counter is 0
in zeroState, before finished and with a queued, rises to 1 when main starts process
for a, and is 0 again when the loop reaches finished: the value zero is taken more
than once and not only at finished. -/
theorem counter_zero_before_finished :
    treeCfg.args ≠ [] ∧ 1 ≤ treeCfg.depth ∧
    Reachable treeCfg zeroState ∧ zeroState.pc = PC.mid ∧
    zeroState.goroutinesOutstanding = 0 ∧ zeroState.queue ≠ [] ∧
    (∃ s, run treeCfg zeroState [Move.main none] = some s ∧ s.goroutinesOutstanding = 1) ∧
    run treeCfg zeroState (treeSchedule.drop 2) = some treeFinal ∧
    treeFinal.pc = PC.fin ∧ treeFinal.goroutinesOutstanding = 0 :=
  ⟨by decide, by decide, ⟨_, treeSchedule.take 2, rfl, by decide⟩, rfl, rfl, by decide,
    ⟨_, rfl, rfl⟩, by decide, rfl, rfl⟩

/-- C8 (amended): in every run with a limit of at least 1, goroutinesOutstanding is 0
when the loop is at finished and strictly positive whenever main blocks on done at
line 267; at any point it is 0 exactly when no kickstart or process goroutine is
outstanding. -/
theorem counter_zero_at_finished (cfg : Config) (hn : 1 ≤ cfg.depth) (s : Sys)
    (hr : Reachable cfg s) :
    (s.pc = PC.fin → s.goroutinesOutstanding = 0) ∧
    (s.pc = PC.wait → 0 < s.goroutinesOutstanding) ∧
    (s.goroutinesOutstanding = 0 ↔ s.tasks = []) := by
  refine ⟨fun h => ((control_invariant cfg s hr).2 h).1, wait_positive cfg hn s hr, ?_⟩
  have hc := (counter_counts cfg s hr).1
  constructor
  · intro h0
    have : s.tasks.length = 0 := by omega
    exact List.length_eq_zero.1 this
  · intro ht
    rw [hc, ht]
    rfl

/-- Witness of C8 (amended) on the run of treeSchedule. -/
theorem counter_zero_at_finished_witness :
    1 ≤ treeCfg.depth ∧ Reachable treeCfg treeFinal ∧
    ((treeFinal.pc = PC.fin → treeFinal.goroutinesOutstanding = 0) ∧
     (treeFinal.pc = PC.wait → 0 < treeFinal.goroutinesOutstanding) ∧
     (treeFinal.goroutinesOutstanding = 0 ↔ treeFinal.tasks = [])) :=
  ⟨by decide, ⟨_, treeSchedule, rfl, by decide⟩,
    counter_zero_at_finished treeCfg (by decide) treeFinal ⟨_, treeSchedule, rfl, by decide⟩⟩

/-- C10 (counterexample): with a queue of capacity 1 and the scenario tree, the run
reaches stuckState, in which finished has not been reached and no move is enabled:
main is blocked on done at line 267 and the only outstanding goroutine, process of
a, is blocked sending a/c on the full queue. -/
theorem backpressure_deadlock :
    1 ≤ tightCfg.qcap ∧ 1 ≤ tightCfg.depth ∧
    Reachable tightCfg stuckState ∧ stuckState.pc = PC.wait ∧
    stuckState.queue.length = tightCfg.qcap ∧
    (∀ m, step tightCfg stuckState m = none) := by
  refine ⟨by decide, by decide,
    ⟨_, [Move.task 0, Move.main (some 0), Move.main none, Move.task 0], rfl, by decide⟩,
    rfl, rfl, ?_⟩
  intro m
  cases m with
  | task i =>
    cases i with
    | zero => rfl
    | succ i => simp [step, taskStep, stuckState]
  | main sender =>
    cases sender with
    | none => rfl
    | some i =>
      cases i with
      | zero => rfl
      | succ i => simp [step, mainStep, recvDone, stuckState]

/-! ## The goroutines: what each has performed -/

theorem performed_append (log : List (Nat × Action)) (i0 : Nat) (a : Action) (id : Nat) :
    performed (log ++ [(i0, a)]) id =
      if i0 = id then performed log id ++ [a] else performed log id := by
  unfold performed
  by_cases h : i0 = id
  · simp [List.filter_append, h]
  · simp [List.filter_append, h]

theorem own_id (ids : List Nat) (tasks : List (List Action)) (i : Nat) (t : List Action)
    (hlen : ids.length = tasks.length) (ht : tasks[i]? = some t) :
    ids[i]? = some (ids.getD i 0) ∧ ids.getD i 0 ∈ ids := by
  obtain ⟨hi, _⟩ := List.getElem?_eq_some.1 ht
  have hi2 : i < ids.length := by omega
  have h1 : ids[i]? = some (ids.getD i 0) := by
    rw [List.getD_eq_getElem?_getD, List.getElem?_eq_getElem hi2]
    rfl
  exact ⟨h1, List.mem_iff_getElem?.2 ⟨i, h1⟩⟩

theorem other_id (ids : List Nat) (i j a b : Nat) (hn : ids.Nodup)
    (hi : ids[i]? = some a) (hj : ids[j]? = some b) (hij : i ≠ j) : a ≠ b := by
  intro hab
  subst hab
  obtain ⟨hlt, _⟩ := List.getElem?_eq_some.1 hi
  exact hij (List.getElem?_inj hlt hn (hi.trans hj.symm))

theorem program_append (cfg : Config) (taken : List dirItem) (item : dirItem) (id : Nat)
    (h : id ≤ taken.length) :
    program cfg (taken ++ [item]) id = program cfg taken id := by
  cases id with
  | zero => rfl
  | succ k =>
    have hk : k < taken.length := by omega
    simp only [program, List.getElem?_append_left hk]

theorem program_new (cfg : Config) (taken : List dirItem) (item : dirItem) :
    program cfg (taken ++ [item]) (taken.length + 1) = process (cfg.fs taken.length) item := by
  simp [program]

/-- A step that changes neither the goroutines nor the log keeps the agreement of the
log with the programs. -/
theorem trace_same (cfg : Config) (s next : Sys) (h : Trace cfg s) (hpc : s.pc ≠ PC.exited)
    (h1 : next.tasks = s.tasks) (h2 : next.ids = s.ids) (h3 : next.log = s.log)
    (h4 : next.spawned = s.spawned) : Trace cfg next := by
  constructor
  · rw [h1, h2]; exact h.len
  · rw [h2]; exact h.nodup
  · rw [h2, h4]; exact h.bound
  · intro _; rw [h1, h2, h3, h4]; exact h.pending hpc
  · rw [h2, h3, h4]; exact h.returned
  · rw [h3, h4]; exact h.fresh
  · rw [h2, h3]; exact h.silent
  · rw [h3, h4]; exact h.initial

/-- Goroutine i performs a statement other than the send on done. -/
theorem trace_act (cfg : Config) (s next : Sys) (i : Nat) (a : Action) (rest : List Action)
    (h : Trace cfg s) (hpc : s.pc ≠ PC.exited) (ht : s.tasks[i]? = some (a :: rest))
    (ha : a ≠ Action.sendDone)
    (h1 : next.pc ≠ PC.exited → next.tasks = s.tasks.set i rest)
    (h1l : next.tasks.length = s.tasks.length)
    (h2 : next.ids = s.ids) (h3 : next.log = s.log ++ [(s.ids.getD i 0, a)])
    (h4 : next.spawned = s.spawned) : Trace cfg next := by
  obtain ⟨hown, hmem⟩ := own_id s.ids s.tasks i _ h.len ht
  have hold := h.pending hpc i _ _ hown ht
  constructor
  · rw [h1l, h2]; exact h.len
  · rw [h2]; exact h.nodup
  · rw [h2, h4]; exact h.bound
  · intro hne j id t hj htj
    rw [h2] at hj
    rw [h1 hne, List.getElem?_set] at htj
    rw [h3, h4, performed_append]
    by_cases hij : i = j
    · subst hij
      rw [if_pos rfl] at htj
      obtain ⟨hi, _⟩ := List.getElem?_eq_some.1 ht
      rw [if_pos hi] at htj
      cases htj
      rw [hown] at hj
      cases hj
      rw [if_pos rfl, List.append_assoc]
      exact hold
    · rw [if_neg hij] at htj
      rw [if_neg (other_id s.ids i j _ _ h.nodup hown hj hij)]
      exact h.pending hpc j id t hj htj
  · intro id hle hnot
    rw [h2] at hnot
    rw [h4] at hle
    have hne : s.ids.getD i 0 ≠ id := fun e => hnot (e ▸ hmem)
    rw [h3, h4, performed_append, if_neg hne]
    exact h.returned id hle hnot
  · intro id hlt
    rw [h4] at hlt
    have hne : s.ids.getD i 0 ≠ id := by
      have := h.bound _ hmem
      omega
    rw [h3, performed_append, if_neg hne]
    exact h.fresh id hlt
  · intro id hid
    rw [h2] at hid
    rw [h3, performed_append]
    by_cases he : s.ids.getD i 0 = id
    · rw [if_pos he]
      intro hm
      rcases List.mem_append.1 hm with hm | hm
      · exact h.silent id hid hm
      · exact ha (List.mem_singleton.1 hm).symm
    · rw [if_neg he]
      exact h.silent id hid
  · intro id
    rw [h3, h4, performed_append]
    by_cases he : s.ids.getD i 0 = id
    · rw [if_pos he]
      refine ⟨rest, ?_⟩
      rw [List.append_assoc, ← he]
      exact hold
    · rw [if_neg he]
      exact h.initial id

/-- The receive on done from goroutine i. -/
theorem trace_recv (cfg : Config) (s next : Sys) (i : Nat)
    (h : Trace cfg s) (hpc : s.pc ≠ PC.exited) (ht : s.tasks[i]? = some [Action.sendDone])
    (h1 : next.tasks = s.tasks.eraseIdx i) (h2 : next.ids = s.ids.eraseIdx i)
    (h3 : next.log = s.log ++ [(s.ids.getD i 0, Action.sendDone)])
    (h4 : next.spawned = s.spawned) : Trace cfg next := by
  obtain ⟨hown, hmem⟩ := own_id s.ids s.tasks i _ h.len ht
  have hold := h.pending hpc i _ _ hown ht
  have hgone : ∀ id, id ∈ s.ids.eraseIdx i → id ∈ s.ids ∧ s.ids.getD i 0 ≠ id := by
    intro id hid
    obtain ⟨j, hji, hj⟩ := List.mem_eraseIdx_iff_getElem?.1 hid
    exact ⟨List.mem_iff_getElem?.2 ⟨j, hj⟩,
      other_id s.ids i j _ _ h.nodup hown hj (fun e => hji e.symm)⟩
  have hstay : ∀ id, id ∈ s.ids → s.ids.getD i 0 ≠ id → id ∈ s.ids.eraseIdx i := by
    intro id hid hne
    obtain ⟨j, hj⟩ := List.mem_iff_getElem?.1 hid
    refine List.mem_eraseIdx_iff_getElem?.2 ⟨j, ?_, hj⟩
    intro hji
    subst hji
    rw [hown] at hj
    cases hj
    exact hne rfl
  constructor
  · obtain ⟨hi, _⟩ := List.getElem?_eq_some.1 ht
    have hi2 : i < s.ids.length := by rw [h.len]; exact hi
    rw [h1, h2, List.length_eraseIdx, List.length_eraseIdx, if_pos hi, if_pos hi2, h.len]
  · rw [h2]; exact List.Nodup.sublist (List.eraseIdx_sublist _ _) h.nodup
  · intro id hid
    rw [h2] at hid
    rw [h4]
    exact h.bound id (hgone id hid).1
  · intro _ j id t hj htj
    rw [h2, List.getElem?_eraseIdx] at hj
    rw [h1, List.getElem?_eraseIdx] at htj
    rw [h3, h4, performed_append]
    by_cases hji : j < i
    · rw [if_pos hji] at hj htj
      rw [if_neg (other_id s.ids i j _ _ h.nodup hown hj (by omega))]
      exact h.pending hpc j id t hj htj
    · rw [if_neg hji] at hj htj
      rw [if_neg (other_id s.ids i (j + 1) _ _ h.nodup hown hj (by omega))]
      exact h.pending hpc (j + 1) id t hj htj
  · intro id hle hnot
    rw [h2] at hnot
    rw [h4] at hle
    rw [h3, h4, performed_append]
    by_cases he : s.ids.getD i 0 = id
    · rw [if_pos he, ← he]
      exact ⟨hold, List.getLast?_concat _⟩
    · rw [if_neg he]
      exact h.returned id hle (fun hid => hnot (hstay id hid he))
  · intro id hlt
    rw [h4] at hlt
    have hne : s.ids.getD i 0 ≠ id := by
      have := h.bound _ hmem
      omega
    rw [h3, performed_append, if_neg hne]
    exact h.fresh id hlt
  · intro id hid
    rw [h2] at hid
    obtain ⟨hin, hne⟩ := hgone id hid
    rw [h3, performed_append, if_neg hne]
    exact h.silent id hin
  · intro id
    rw [h3, h4, performed_append]
    by_cases he : s.ids.getD i 0 = id
    · rw [if_pos he, ← he]
      exact ⟨[], by rw [List.append_nil]; exact hold⟩
    · rw [if_neg he]
      exact h.initial id

/-- The start of a call of process for the item main has taken. -/
theorem trace_spawn (cfg : Config) (s next : Sys) (item : dirItem)
    (h : Trace cfg s) (hpc : s.pc ≠ PC.exited)
    (h1 : next.tasks = s.tasks ++ [process (cfg.fs s.spawned.length) item])
    (h2 : next.ids = s.ids ++ [s.spawned.length + 1]) (h3 : next.log = s.log)
    (h4 : next.spawned = s.spawned ++ [item]) : Trace cfg next := by
  have hnew : s.spawned.length + 1 ∉ s.ids := by
    intro hm
    have := h.bound _ hm
    omega
  constructor
  · rw [h1, h2, List.length_append, List.length_append, h.len]; rfl
  · rw [h2]
    refine List.Nodup.append h.nodup (List.nodup_singleton _) ?_
    intro id hid hs
    rw [List.mem_singleton.1 hs] at hid
    exact hnew hid
  · intro id hid
    rw [h2] at hid
    rw [h4, List.length_append, List.length_singleton]
    rcases List.mem_append.1 hid with hm | hm
    · have := h.bound id hm; omega
    · rw [List.mem_singleton.1 hm]
  · intro _ j id t hj htj
    rw [h2, List.getElem?_append] at hj
    rw [h1, List.getElem?_append, ← h.len] at htj
    rw [h3, h4]
    by_cases hlt : j < s.ids.length
    · rw [if_pos hlt] at hj htj
      have hb := h.bound id (List.mem_iff_getElem?.2 ⟨j, hj⟩)
      rw [program_append cfg s.spawned item id hb]
      exact h.pending hpc j id t hj htj
    · rw [if_neg hlt] at hj htj
      obtain ⟨hl, he⟩ := List.getElem?_eq_some.1 hj
      simp only [List.length_singleton] at hl
      have hz : j - s.ids.length = 0 := by omega
      simp only [hz, List.getElem?_cons_zero, Option.some.injEq] at hj htj
      subst hj
      subst htj
      rw [h.fresh _ (Nat.lt_succ_self _), List.nil_append, program_new]
  · intro id hle hnot
    rw [h2] at hnot
    rw [h4, List.length_append, List.length_singleton] at hle
    have hne : id ≠ s.spawned.length + 1 :=
      fun e => hnot (List.mem_append_right _ (List.mem_singleton.2 e))
    have hle2 : id ≤ s.spawned.length := by omega
    rw [h3, h4, program_append cfg s.spawned item id hle2]
    exact h.returned id hle2 (fun hm => hnot (List.mem_append_left _ hm))
  · intro id hlt
    rw [h4, List.length_append, List.length_singleton] at hlt
    rw [h3]
    exact h.fresh id (by omega)
  · intro id hid
    rw [h2] at hid
    rw [h3]
    rcases List.mem_append.1 hid with hm | hm
    · exact h.silent id hm
    · rw [List.mem_singleton.1 hm, h.fresh _ (Nat.lt_succ_self _)]
      simp
  · intro id
    rw [h3, h4]
    by_cases hle : id ≤ s.spawned.length
    · rw [program_append cfg s.spawned item id hle]
      exact h.initial id
    · rw [h.fresh id (by omega)]
      exact ⟨_, List.nil_append _⟩

/-- In every reachable state the log agrees with the programs of the goroutines. -/
theorem trace_invariant (cfg : Config) (s : Sys) (hr : Reachable cfg s) : Trace cfg s := by
  refine reachable_induction cfg (fun s => Trace cfg s) ?_ ?_ s hr
  · intro s0 h0
    rw [mainStart_eq cfg s0 h0]
    constructor
    · rfl
    · simp
    · intro id hid; simp at hid; omega
    · intro _ j id t hj htj
      cases j with
      | zero =>
        simp only [List.getElem?_cons_zero, Option.some.injEq] at hj htj
        subst hj
        subst htj
        rfl
      | succ j => simp at hj
    · intro id hle hnot
      simp at hle hnot
      exact absurd hle hnot
    · intro id _; rfl
    · intro id _; simp [performed]
    · intro id; exact ⟨_, List.nil_append _⟩
  · intro s next _ hp hstep
    cases hstep with
    | push i x rest _ hx ht hq =>
      exact trace_act cfg s _ i _ rest hp hx ht (by simp) (fun _ => rfl) (by simp) rfl rfl rfl
    | quiet i a rest _ hx ht ha =>
      refine trace_act cfg s _ i a rest hp hx ht ?_ (fun _ => rfl) (by simp) rfl rfl rfl
      rcases ha with ⟨d, hd⟩ | ⟨p, hd⟩ <;> subst hd <;> simp
    | fatal i rest _ hx ht =>
      exact trace_act cfg s _ i _ rest hp hx ht (by simp) (fun hne => absurd rfl hne) rfl
        rfl rfl rfl
    | recv i nxt hpc ht =>
      refine trace_recv cfg s _ i hp ?_ ht rfl rfl rfl rfl
      rcases hpc with ⟨h, _⟩ | ⟨h, _⟩ <;> rw [h] <;> decide
    | skip hpc => exact trace_same cfg s _ hp (by rw [hpc]; decide) rfl rfl rfl rfl
    | spawn item rest hpc _ _ =>
      exact trace_spawn cfg s _ item hp (by rw [hpc]; decide) rfl rfl rfl rfl
    | handoff i item rest hpc _ _ ht =>
      have hmid : s.pc ≠ PC.exited := by rw [hpc]; decide
      have h1 : Trace cfg { s with tasks := s.tasks.set i rest,
                                   log := s.log ++ [(s.ids.getD i 0, Action.push item)] } :=
        trace_act cfg s _ i _ rest hp hmid ht (by simp) (fun _ => rfl) (by simp) rfl rfl rfl
      exact trace_spawn cfg _ _ item h1 hmid rfl rfl rfl rfl
    | empty hpc _ _ => exact trace_same cfg s _ hp (by rw [hpc]; decide) rfl rfl rfl rfl
    | full hpc _ => exact trace_same cfg s _ hp (by rw [hpc]; decide) rfl rfl rfl rfl
    | finish hpc _ => exact trace_same cfg s _ hp (by rw [hpc]; decide) rfl rfl rfl rfl
    | again hpc _ => exact trace_same cfg s _ hp (by rw [hpc]; decide) rfl rfl rfl rfl

theorem wellFormed_count (l : List Action) (h : wellFormed l = true) :
    l.count Action.sendDone ≤ 1 := by
  induction l with
  | nil => simp [wellFormed] at h
  | cons a tl ih =>
    cases tl with
    | nil =>
      rw [List.count_cons]
      simp only [List.count_nil, Nat.zero_add]
      split <;> omega
    | cons b rest =>
      simp only [wellFormed, Bool.and_eq_true, bne_iff_ne, ne_eq] at h
      rw [List.count_cons_of_ne (fun e => h.1 e.symm)]
      exact ih h.2

theorem wellFormed_sendDone_last (pre rest : List Action)
    (h : wellFormed (pre ++ rest) = true) (hm : Action.sendDone ∈ pre) : rest = [] := by
  induction pre with
  | nil => cases hm
  | cons a pre ih =>
    by_cases ha : a = Action.sendDone
    · subst ha
      have := wellFormed_sendDone (pre ++ rest) h
      exact (List.append_eq_nil.1 this).2
    · have hin : Action.sendDone ∈ pre := by
        rcases List.mem_cons.1 hm with e | e
        · exact absurd e.symm ha
        · exact e
      cases hpr : pre ++ rest with
      | nil =>
        have := (List.append_eq_nil.1 hpr).1
        rw [this] at hin
        cases hin
      | cons b tl =>
        rw [List.cons_append, hpr] at h
        simp only [wellFormed, Bool.and_eq_true] at h
        rw [← hpr] at h
        exact ih h.2 hin

theorem program_taken (cfg : Config) (taken : List dirItem) (k : Nat) (x : dirItem)
    (hk : taken[k]? = some x) : program cfg taken (k + 1) = process (cfg.fs k) x := by
  simp [program, hk]

/-- C9 (amended): in every state of every run, the k-th call of process, made for the
item x, has performed an initial part of its statements and has sent at most one
value on done; once it is no longer outstanding it has performed all its statements
and has sent exactly one value on done, as the last of them; while it is outstanding
it has sent none, and it can perform its next statement except that a send on queue
needs room in the queue and the send on done needs main at a receive on done. When
none of its filesystem calls fails its statements end with the send on done and
contain no log.Fatalf; when os.Remove fails (file item) or os.Open or Readdir fails
(directory item) they end with log.Fatalf and the call sends nothing on done. -/
theorem invocation_done_signal (cfg : Config) (s : Sys) (hr : Reachable cfg s)
    (k : Nat) (x : dirItem) (hk : s.spawned[k]? = some x) :
    (∃ rest, performed s.log (k + 1) ++ rest = process (cfg.fs k) x) ∧
    (performed s.log (k + 1)).count Action.sendDone ≤ 1 ∧
    (k + 1 ∉ s.ids →
      performed s.log (k + 1) = process (cfg.fs k) x ∧
      (performed s.log (k + 1)).count Action.sendDone = 1 ∧
      (performed s.log (k + 1)).getLast? = some Action.sendDone) ∧
    (k + 1 ∈ s.ids → Action.sendDone ∉ performed s.log (k + 1)) ∧
    (k + 1 ∈ s.ids → s.pc ≠ PC.exited →
      ∃ j a rest, s.ids[j]? = some (k + 1) ∧ s.tasks[j]? = some (a :: rest) ∧
        performed s.log (k + 1) ++ a :: rest = process (cfg.fs k) x ∧
        ((∃ y, a = Action.push y) → s.queue.length < cfg.qcap →
          ∃ next, step cfg s (Move.task j) = some next) ∧
        ((∃ d, a = Action.sendDirs d) ∨ (∃ p, a = Action.remove p) ∨ a = Action.fatal →
          ∃ next, step cfg s (Move.task j) = some next) ∧
        (a = Action.sendDone → rest = [] ∧
          (s.pc = PC.top ∨ s.pc = PC.wait →
            ∃ next, step cfg s (Move.main (some j)) = some next))) ∧
    (x.info.isDir = false → (cfg.fs k).removeOk x.name = true →
      (process (cfg.fs k) x).getLast? = some Action.sendDone ∧
      Action.fatal ∉ process (cfg.fs k) x) ∧
    (x.info.isDir = true → (cfg.fs k).openOk x.name = true →
      ∀ contents, (cfg.fs k).readdir x.name = some contents →
      (cfg.fs k).closeOk x.name = true →
      (process (cfg.fs k) x).getLast? = some Action.sendDone ∧
      Action.fatal ∉ process (cfg.fs k) x) ∧
    (x.info.isDir = false → (cfg.fs k).removeOk x.name = false →
      (process (cfg.fs k) x).getLast? = some Action.fatal ∧
      Action.sendDone ∉ performed s.log (k + 1)) ∧
    (x.info.isDir = true →
      ((cfg.fs k).openOk x.name = false ∨ (cfg.fs k).readdir x.name = none) →
      (process (cfg.fs k) x).getLast? = some Action.fatal ∧
      Action.sendDone ∉ performed s.log (k + 1)) := by
  have T := trace_invariant cfg s hr
  have hprog := program_taken cfg s.spawned k x hk
  have hlt : k + 1 ≤ s.spawned.length := by
    obtain ⟨h, _⟩ := List.getElem?_eq_some.1 hk
    omega
  obtain ⟨rest, hrest⟩ := T.initial (k + 1)
  rw [hprog] at hrest
  have hstat := process_statements (cfg.fs k) x
  have hcount : (performed s.log (k + 1)).count Action.sendDone ≤ 1 := by
    have h1 := wellFormed_count _ (wellFormed_process (cfg.fs k) x)
    rw [← hrest, List.count_append] at h1
    omega
  have hnone : (process (cfg.fs k) x).count Action.sendDone = 0 →
      Action.sendDone ∉ performed s.log (k + 1) := by
    intro h0 hm
    have : Action.sendDone ∈ process (cfg.fs k) x := by
      rw [← hrest]; exact List.mem_append_left _ hm
    exact (List.count_eq_zero.1 h0) this
  refine ⟨⟨rest, hrest⟩, hcount, ?_, T.silent (k + 1), ?_, ?_, ?_, ?_, ?_⟩
  · intro hnot
    obtain ⟨h1, h2⟩ := T.returned (k + 1) hlt hnot
    rw [hprog] at h1
    refine ⟨h1, ?_, h2⟩
    have hm : Action.sendDone ∈ performed s.log (k + 1) := by
      obtain ⟨ys, hys⟩ := List.getLast?_eq_some_iff.1 h2
      rw [hys]; simp
    have := List.count_pos_iff.2 hm
    omega
  · intro hin hex
    obtain ⟨j, hj⟩ := List.mem_iff_getElem?.1 hin
    obtain ⟨hjlt, _⟩ := List.getElem?_eq_some.1 hj
    have hjt : j < s.tasks.length := by rw [← T.len]; exact hjlt
    have htj : s.tasks[j]? = some s.tasks[j] := List.getElem?_eq_getElem hjt
    have hpend := T.pending hex j (k + 1) _ hj htj
    rw [hprog] at hpend
    have hw := tasks_wellFormed cfg s hr _ (List.mem_iff_getElem?.2 ⟨j, htj⟩)
    have hfin : s.pc ≠ PC.fin := by
      intro hf
      have h0 := ((control_invariant cfg s hr).2 hf).1
      have hc := (counter_counts cfg s hr).1
      omega
    have hguard : ¬ (s.pc = PC.fin ∨ s.pc = PC.exited) := fun h => h.elim hfin hex
    cases ht : s.tasks[j] with
    | nil => rw [ht] at hw; simp [wellFormed] at hw
    | cons a rest =>
      rw [ht] at htj hpend hw
      refine ⟨j, a, rest, hj, htj, hpend, ?_, ?_, ?_⟩
      · rintro ⟨y, hy⟩ hroom
        subst hy
        simp [step, taskStep, hguard, htj, hroom]
      · rintro (⟨d, hd⟩ | ⟨p, hd⟩ | hd) <;> subst hd <;>
          simp [step, taskStep, hguard, htj]
      · intro hd
        subst hd
        have hnil := wellFormed_sendDone rest hw
        subst hnil
        refine ⟨rfl, ?_⟩
        rintro (hpc | hpc) <;> simp [step, mainStep, recvDone, hpc, htj]
  · intro hd hr
    have := hstat.1 hd hr
    exact ⟨this.2.1, this.2.2⟩
  · intro hd ho contents hl hc
    have := hstat.2.2.1 hd ho contents hl hc
    exact ⟨this.2.1, this.2.2⟩
  · intro hd hr
    have := hstat.2.1 hd hr
    exact ⟨this.2, hnone this.1⟩
  · intro hd hf
    have := hstat.2.2.2 hd hf
    exact ⟨this.2, hnone this.1⟩

/-- Witness of C9 (amended): in stuckState the call of process for a, none of whose
filesystem calls fails, is outstanding and has sent nothing on done; in treeFinal it
is no longer outstanding and has sent one value on done, last. -/
theorem invocation_done_signal_witness :
    Reachable tightCfg stuckState ∧ stuckState.spawned[0]? = some dirA ∧
    (1 ∈ stuckState.ids → Action.sendDone ∉ performed stuckState.log 1) ∧
    Reachable treeCfg treeFinal ∧ treeFinal.spawned[0]? = some dirA ∧
    (1 ∉ treeFinal.ids →
      performed treeFinal.log 1 = process (treeCfg.fs 0) dirA ∧
      (performed treeFinal.log 1).count Action.sendDone = 1 ∧
      (performed treeFinal.log 1).getLast? = some Action.sendDone) :=
  ⟨⟨_, [Move.task 0, Move.main (some 0), Move.main none, Move.task 0], rfl, by decide⟩,
    rfl,
    (invocation_done_signal tightCfg stuckState
      ⟨_, [Move.task 0, Move.main (some 0), Move.main none, Move.task 0], rfl, by decide⟩
      0 dirA rfl).2.2.2.1,
    ⟨_, treeSchedule, rfl, by decide⟩, rfl,
    (invocation_done_signal treeCfg treeFinal ⟨_, treeSchedule, rfl, by decide⟩
      0 dirA rfl).2.2.1⟩

/-! ## Progress and backpressure -/

/-- The buffer of queue never holds more items than its capacity. -/
theorem queue_le_cap (cfg : Config) (s : Sys) (h : Reachable cfg s) :
    s.queue.length ≤ cfg.qcap := by
  refine reachable_induction cfg (fun s => s.queue.length ≤ cfg.qcap) ?_ ?_ s h
  · intro s0 h0
    rw [mainStart_eq cfg s0 h0]
    exact Nat.zero_le _
  · intro s next _ hp hstep
    cases hstep with
    | push i x rest _ _ ht hq => simp only [List.length_append, List.length_singleton]; omega
    | quiet i a rest _ _ ht ha => exact hp
    | fatal i rest _ _ ht => exact hp
    | recv i nxt hpc ht => exact hp
    | skip _ => exact hp
    | spawn item rest _ _ hq =>
      simp only
      rw [hq, List.length_cons] at hp
      omega
    | handoff i item rest _ _ _ _ => exact hp
    | empty _ _ _ => exact hp
    | full _ _ => exact hp
    | finish _ _ => exact hp
    | again _ _ => exact hp

/-- C10 (amended): for every limit of at least 1, in every reachable state in which
the program has neither reached finished nor been ended by log.Fatalf, main or one of
the goroutines can take a step, unless main is blocked on done at line 267, the queue
is full and the next statement of every outstanding goroutine is a send on queue; in
such a state nothing can take a step. -/
theorem progress_unless_all_blocked (cfg : Config) (hn : 1 ≤ cfg.depth) (s : Sys)
    (hr : Reachable cfg s) (hfin : s.pc ≠ PC.fin) (hex : s.pc ≠ PC.exited) :
    ((∃ m next, step cfg s m = some next) ∨
      (s.pc = PC.wait ∧ s.queue.length = cfg.qcap ∧
        ∀ t ∈ s.tasks, ∃ x rest, t = Action.push x :: rest)) ∧
    ((s.pc = PC.wait ∧ s.queue.length = cfg.qcap ∧
        ∀ t ∈ s.tasks, ∃ x rest, t = Action.push x :: rest) →
      ∀ m, step cfg s m = none) := by
  constructor
  · have key : (∃ m, (step cfg s m).isSome = true) ∨
        (s.pc = PC.wait ∧ s.queue.length = cfg.qcap ∧
          ∀ t ∈ s.tasks, ∃ x rest, t = Action.push x :: rest) := by
      cases hpc : s.pc with
      | top => exact Or.inl ⟨Move.main none, by simp [step, mainStep, hpc]⟩
      | mid =>
        refine Or.inl ⟨Move.main none, ?_⟩
        simp only [step, mainStep, hpc]
        split
        · split <;> rfl
        · rfl
      | polled =>
        refine Or.inl ⟨Move.main none, ?_⟩
        simp only [step, mainStep, hpc]
        split <;> rfl
      | wait =>
        have hpos := wait_positive cfg hn s hr hpc
        have hc := (counter_counts cfg s hr).1
        have hwf := tasks_wellFormed cfg s hr
        have hcap := queue_le_cap cfg s hr
        by_cases hall : ∀ t ∈ s.tasks, ∃ x rest, t = Action.push x :: rest
        · by_cases hroom : s.queue.length < cfg.qcap
          · cases htasks : s.tasks with
            | nil => rw [htasks] at hc; simp at hc; omega
            | cons t ts =>
              obtain ⟨x, rest, hx⟩ := hall t (by rw [htasks]; exact List.mem_cons_self _ _)
              subst hx
              exact Or.inl ⟨Move.task 0, by simp [step, taskStep, hpc, htasks, hroom]⟩
          · exact Or.inr ⟨rfl, by omega, hall⟩
        · left
          simp only [not_forall] at hall
          obtain ⟨t, htm, hnp⟩ := hall
          obtain ⟨j, hj⟩ := List.mem_iff_getElem?.1 htm
          have hw := hwf t htm
          cases t with
          | nil => simp [wellFormed] at hw
          | cons a rest =>
            cases a with
            | push x => exact absurd ⟨x, rest, rfl⟩ hnp
            | sendDirs d => exact ⟨Move.task j, by simp [step, taskStep, hpc, hj]⟩
            | remove p => exact ⟨Move.task j, by simp [step, taskStep, hpc, hj]⟩
            | fatal => exact ⟨Move.task j, by simp [step, taskStep, hpc, hj]⟩
            | sendDone =>
              have hrest := wellFormed_sendDone rest hw
              subst hrest
              exact ⟨Move.main (some j), by simp [step, mainStep, recvDone, hpc, hj]⟩
      | fin => exact absurd hpc hfin
      | exited => exact absurd hpc hex
    rcases key with ⟨m, hm⟩ | hb
    · obtain ⟨next, hnext⟩ := Option.isSome_iff_exists.1 hm
      exact Or.inl ⟨m, next, hnext⟩
    · exact Or.inr hb
  · rintro ⟨hpc, hfull, hall⟩ m
    cases m with
    | task i =>
      simp only [step, hpc]
      rw [if_neg (by decide)]
      unfold taskStep
      cases hi : s.tasks[i]? with
      | none => rfl
      | some t =>
        obtain ⟨x, rest, hx⟩ := hall t (List.mem_iff_getElem?.2 ⟨i, hi⟩)
        subst hx
        simp only
        rw [if_neg (by omega)]
    | main sender =>
      cases sender with
      | none => simp [step, mainStep, hpc]
      | some i =>
        simp only [step, mainStep, hpc, recvDone]
        cases hi : s.tasks[i]? with
        | none => rfl
        | some t =>
          obtain ⟨x, rest, hx⟩ := hall t (List.mem_iff_getElem?.2 ⟨i, hi⟩)
          subst hx
          rfl

/-- Witness of C10 (amended): in fullState the queue of capacity 1 is full and process
of a is blocked sending on it, yet main can receive the value kickstart sends on
done. -/
theorem progress_unless_all_blocked_witness :
    1 ≤ tightCfg.depth ∧ Reachable tightCfg fullState ∧ fullState.pc ≠ PC.fin ∧
    fullState.pc ≠ PC.exited ∧ fullState.queue.length = tightCfg.qcap ∧
    step tightCfg fullState (Move.main (some 0)) ≠ none ∧
    (((∃ m next, step tightCfg fullState m = some next) ∨
      (fullState.pc = PC.wait ∧ fullState.queue.length = tightCfg.qcap ∧
        ∀ t ∈ fullState.tasks, ∃ x rest, t = Action.push x :: rest)) ∧
    ((fullState.pc = PC.wait ∧ fullState.queue.length = tightCfg.qcap ∧
        ∀ t ∈ fullState.tasks, ∃ x rest, t = Action.push x :: rest) →
      ∀ m, step tightCfg fullState m = none)) :=
  ⟨by decide,
    ⟨_, [Move.task 0, Move.main none, Move.main none, Move.task 1], rfl, by decide⟩,
    by decide, by decide, rfl, by decide,
    progress_unless_all_blocked tightCfg (by decide) fullState
      ⟨_, [Move.task 0, Move.main none, Move.main none, Move.task 1], rfl, by decide⟩
      (by decide) (by decide)⟩

end Rmrf
